import Mathlib

/-!
Verification development for the `nitpick` style tool
(`cpplint/nitpick.py`): the include-block sorter (`sort_includes`,
`sort_includes_batch`, `HFile`, `is_own_header`), the spacing
normalizer (`correct_spacing`), and the multi-file driver (`stylify`).

The Python code is shallowly embedded: lines are `String`s (no `'\n'`
inside a line, since the orchestrator splits file contents on newlines),
the include record is a structure, and the per-file transformation
returns `Except NitpickError (List String × List Warning)`; fatal errors
are the raised exceptions, and warnings collect the arguments passed to
`warn`.  The two injected collaborators that live outside this
repository are modelled as parameters, following the spec (section 6):
  * the header classifier `cpplint._ClassifyInclude`
    (`cf : String → String → Bool → IncType`), and
  * the project-membership predicate `is_project_file`, which consults
    the filesystem and is used only for advisory warnings
    (`pf : String → Bool`).
Whitespace (`\s` of Python's `re`, and `str.strip`) is modelled over the
ASCII whitespace characters; `str.lower` is modelled by ASCII
`Char.toLower`.
-/

namespace Nitpick


/-- Python regex `\s` / `str.strip` whitespace (ASCII part; a line never
contains `'\n'` but we keep it for totality). -/
def pyWs (c : Char) : Bool :=
  c = ' ' || c = '\t' || c = '\n' || c = '\r' || c = '\x0b' || c = '\x0c'

/-- Python regex `\w` (ASCII part): letters, digits, underscore. -/

def wordChar (c : Char) : Bool :=
  ('a' ≤ c && c ≤ 'z') || ('A' ≤ c && c ≤ 'Z') || ('0' ≤ c && c ≤ '9') || c = '_'

/-- `str.strip()` on a line: drop leading and trailing whitespace. -/

def pyStripList (l : List Char) : List Char :=
  ((l.dropWhile pyWs).reverse.dropWhile pyWs).reverse

def pyStrip (s : String) : String :=
  ⟨pyStripList s.toList⟩

/-- The guard `line.strip().startswith(u'#include')` in `sort_includes`
that decides whether a line is treated as an include-directive line. -/

def isIncludeLine (s : String) : Bool :=
  "#include".toList.isPrefixOf (pyStripList s.toList)

/-- Characters allowed in the target group `([^>"\s]*)` of
`_RE_PATTERN_INCLUDE`. -/

def nameChar (c : Char) : Bool :=
  !(pyWs c) && c ≠ '>' && c ≠ '"'

/-- Included h-file record (`class HFile`): target `name`, delimiter
style `is_system` (`<...>` vs `"..."`), and the verbatim `post_str`
after the closing delimiter. -/

structure HFile where
  name : String
  is_system : Bool
  post_str : String
deriving DecidableEq, Repr

/-- Second half of `_RE_PATTERN_INCLUDE` after the opening delimiter:
`\s*([^>"\s]*)\s*[>"](.*$)`.  The regex is deterministic here: the
target group cannot contain whitespace or a closing delimiter, so
backtracking never changes the outcome.  Note the closing delimiter is
`[>"]`: it need not agree with the opening one, exactly as in the
pattern. -/

def parseAfterOpen (sys : Bool) (r : List Char) : Option HFile :=
  match ((r.dropWhile pyWs).dropWhile nameChar).dropWhile pyWs with
  | c :: post =>
      if c = '>' || c = '"' then
        some ⟨⟨(r.dropWhile pyWs).takeWhile nameChar⟩, sys, ⟨post⟩⟩
      else none
  | [] => none

/-- `HFile.__init__`: match the line against
`^\s*#\s*include\s*([<"])\s*([^>"\s]*)\s*[>"](.*$)` and build the
record; `none` models the raised parse exception
(`Not an include line: ...`). -/

def parseInclude (l : List Char) : Option HFile :=
  match l.dropWhile pyWs with
  | c :: r1 =>
    if c = '#' then
      if "include".toList.isPrefixOf (r1.dropWhile pyWs) then
        match ((r1.dropWhile pyWs).drop 7).dropWhile pyWs with
        | d :: r3 =>
          if d = '<' then parseAfterOpen true r3
          else if d = '"' then parseAfterOpen false r3
          else none
        | [] => none
      else none
    else none
  | [] => none

def HFile.parse (s : String) : Option HFile :=
  parseInclude s.toList

/-- `HFile.__repr__`: re-serialize using the stored delimiter style and
trailer (`'#include <{hfile}>{post_str}'` resp.
`'#include "{hfile}"{post_str}'`). -/

def HFile.render (h : HFile) : String :=
  if h.is_system then "#include <" ++ h.name ++ ">" ++ h.post_str
  else "#include \"" ++ h.name ++ "\"" ++ h.post_str

/-- A record as produced by the parser: its target contains no
whitespace and no closing delimiter. -/

def HFile.wf (h : HFile) : Prop :=
  ∀ c ∈ h.name.toList, nameChar c

instance (h : HFile) : Decidable h.wf := by
  unfold HFile.wf; infer_instance

/-! ### List scanning helper lemmas -/

/-- Python `str.split(sep)` for a one-character separator. -/
def pySplit (sep : Char) : List Char → List (List Char)
  | [] => [[]]
  | c :: cs =>
    if c = sep then [] :: pySplit sep cs
    else
      match pySplit sep cs with
      | g :: gs => (c :: g) :: gs
      | [] => [[c]]

/-- The component loop of `posixpath.normpath`: skip empty and `.`
components, let `..` cancel a previous real component (except at the
start of a relative path or after an uncancelled `..`). -/

def normComps (slashes : Nat) (comps : List (List Char)) : List (List Char) :=
  comps.foldl
    (fun nc comp =>
      if comp = [] ∨ comp = ['.'] then nc
      else if comp ≠ ['.', '.'] ∨ (slashes = 0 ∧ nc = []) ∨ (nc ≠ [] ∧ nc.getLast? = some ['.', '.'])
        then nc ++ [comp]
      else if nc ≠ [] then nc.dropLast
      else nc)
    []

/-- `posixpath.normpath` (over the character list; one, two, or three-or-
more initial slashes are preserved as one, two, or one slashes). -/

def normpathList (l : List Char) : List Char :=
  if l = [] then ['.']
  else
    let slashes : Nat :=
      match l with
      | '/' :: '/' :: '/' :: _ => 1
      | '/' :: '/' :: _ => 2
      | '/' :: _ => 1
      | _ => 0
    let path := List.replicate slashes '/'
      ++ List.intercalate ['/'] (normComps slashes (pySplit '/' l))
    if path = [] then ['.'] else path

def normpath (p : String) : String :=
  ⟨normpathList p.toList⟩

/-- Index of the last occurrence of `c` in `l` (`str.rfind`), `none` when
absent. -/

def rfindIdx (l : List Char) (c : Char) : Option Nat :=
  match l.reverse.findIdx? (· = c) with
  | some i => some (l.length - 1 - i)
  | none => none

/-- First component of `posixpath.splitext`: split off the extension at
the last dot of the basename, unless the basename consists only of
leading dots up to there. -/

def splitextFst (p : String) : String :=
  let l := p.toList
  let sepIdx : Int := ((rfindIdx l '/').map Int.ofNat).getD (-1)
  let dotIdx : Int := ((rfindIdx l '.').map Int.ofNat).getD (-1)
  if sepIdx < dotIdx then
    let base := (l.take dotIdx.toNat).drop (sepIdx + 1).toNat
    if base.any (· ≠ '.') then ⟨l.take dotIdx.toNat⟩ else p
  else p

/-- `src_pref.endswith('_test')` and `src_pref[:-5]`, over character
lists. -/

def dropTestSuffix (s : String) : String :=
  if "_test".toList.isSuffixOf s.toList then ⟨s.toList.take (s.toList.length - 5)⟩ else s

/-- `is_own_header(src_file, include)`: is `include` the self-header of
`src_file`?  The `--root` override (`os.path.relpath(src_file, _ROOT)`
when `_ROOT` is set, identity otherwise) depends on the process working
directory, so it is injected as `rel`. -/

def is_own_header (rel : String → String) (src_file inc : String) : Bool :=
  let src0 := rel src_file
  let inc_pref := normpath (splitextFst inc)
  let src_pref := dropTestSuffix (normpath (splitextFst src0))
  inc_pref = src_pref

/-- Code-point comparison of strings, as lists (the order Python's
`sorted` uses on `str`). -/

def listLE : List Char → List Char → Bool
  | [], _ => true
  | _ :: _, [] => false
  | a :: as, b :: bs =>
    if a.toNat < b.toNat then true
    else if b.toNat < a.toNat then false
    else listLE as bs

/-- The key order of `sorted(includes.keys())`. -/

def keyLe (a b : String) : Prop :=
  listLE a.toList b.toList = true

instance : DecidableRel keyLe := fun a b => by
  unfold keyLe; infer_instance

/-! ### The include-sorting pipeline -/

/-- The classification hints of `cpplint._ClassifyInclude`, including
this fork's external-library category (`_LIBS_HEADER`). -/

inductive IncType where
  | likelyMyHeader
  | possibleMyHeader
  | cSysHeader
  | cppSysHeader
  | libsHeader
  | otherHeader
deriving DecidableEq, Repr

/-- `_SECTIONS_ORDER`. -/

def sectionsOrder : List (List IncType) :=
  [[.likelyMyHeader, .possibleMyHeader], [.cSysHeader], [.cppSysHeader], [.libsHeader],
    [.otherHeader]]

/-- `str.lower()` (ASCII model, applied characterwise). -/

def pyLower (s : String) : String :=
  ⟨s.data.map Char.toLower⟩

/-- The pending batch: the `includes` dict, keyed by lower-cased target,
in insertion order. -/

abbrev IncMap := List (String × HFile)

def lookupInc (k : String) : IncMap → Option HFile
  | [] => none
  | (k', h) :: rest => if k' = k then some h else lookupInc k rest

/-- `by_type[inc_type].append(s)` on an insertion-ordered
`defaultdict(list)`. -/

def addByType (bt : List (IncType × List String)) (t : IncType) (s : String) :
    List (IncType × List String) :=
  match bt with
  | [] => [(t, [s])]
  | (t', ls) :: rest => if t' = t then (t', ls ++ [s]) :: rest else (t', ls) :: addByType rest t s

/-- The classification used for grouping in `sort_includes_batch`: the
injected classifier's answer, demoted to `_OTHER_HEADER` when it reports
an own-header but `is_own_header(filename, name)` fails (note the
argument is the lower-cased dict key `name`, not `hfile.name`). -/

def effType (rel : String → String) (cf : String → String → Bool → IncType)
    (filename name : String) (h : HFile) : IncType :=
  let t := cf filename h.name h.is_system
  if (t = .likelyMyHeader || t = .possibleMyHeader) && !is_own_header rel filename name
    then .otherHeader else t

/-- `sorted(includes.keys())`. -/

def sortedKeys (inc : IncMap) : List String :=
  (inc.map Prod.fst).insertionSort keyLe

/-- One step of the first loop of `sort_includes_batch`: classify the
record stored under `name` and append its rendering to its group. -/

def btStep (rel : String → String) (cf : String → String → Bool → IncType)
    (filename : String) (inc : IncMap) (bt : List (IncType × List String)) (name : String) :
    List (IncType × List String) :=
  match lookupInc name inc with
  | some h => addByType bt (effType rel cf filename name h) h.render
  | none => bt

/-- The `by_type` dict built by the first loop of
`sort_includes_batch`. -/

def buildBT (rel : String → String) (cf : String → String → Bool → IncType)
    (filename : String) (inc : IncMap) : List (IncType × List String) :=
  (sortedKeys inc).foldl (btStep rel cf filename inc) []

/-- `if sorted_includes and sorted_includes[-1]: sorted_includes.append(u'')`. -/

def withSep (acc : List String) : List String :=
  match acc.getLast? with
  | some s => if s ≠ "" then acc ++ [""] else acc
  | none => acc

/-- One `for inc_type in by_type.keys(): if inc_type in sections:
sorted_includes.extend(...)` pass. -/

def extendSecs (bt : List (IncType × List String)) (secs : List IncType) (acc : List String) :
    List String :=
  bt.foldl (fun a p => if p.1 ∈ secs then a ++ p.2 else a) acc

/-- `sort_includes_batch(filename, includes)`. -/

def sort_includes_batch (rel : String → String) (cf : String → String → Bool → IncType)
    (filename : String) (inc : IncMap) : List String :=
  let bt := buildBT rel cf filename inc
  sectionsOrder.foldl (fun acc secs => withSep (extendSecs bt secs acc)) []

/-- Arguments of the `warn(...)` calls of `sort_includes` (the sink
formats them; line numbers are stored 1-based, as passed). -/

inductive Warning where
  | dupConsistent (name filename : String) (lnum : Nat) (rendered : String)
  | projWithAngle (name filename : String) (lnum : Nat) (rendered : String)
  | sysWithQuote (name filename : String) (lnum : Nat) (rendered : String)
  | multiBatch (filename : String)
deriving DecidableEq, Repr

/-- The two fatal conditions.  `parseFailure` is `raise Exception(...)`
in `HFile.__init__`; `inconsistentDup` is raised by `err(...)` as a
`RuntimeError`. -/

inductive NitpickError where
  | parseFailure (line : String)
  | inconsistentDup (name filename : String) (lnum : Nat) (rendered : String)
deriving DecidableEq, Repr

/-- Only the `err`-raised error is a `RuntimeError`, which is what the
driver's `except RuntimeError` catches. -/

def NitpickError.isRuntimeError : NitpickError → Bool
  | .parseFailure _ => false
  | .inconsistentDup .. => true

/-- The advisory system-vs-project warnings for a newly inserted record
(lines 153-161). -/

def styleWarnings (pf : String → Bool) (filename : String) (lnum : Nat) (h : HFile) :
    List Warning :=
  if pf h.name then
    if h.is_system then [.projWithAngle h.name filename lnum h.render] else []
  else
    if !h.is_system then [.sysWithQuote h.name filename lnum h.render] else []

/-- The line loop of `sort_includes`: returns the new lines, the emitted
warnings, and the number of batches started. -/

def siGo (rel : String → String) (cf : String → String → Bool → IncType)
    (pf : String → Bool) (filename : String) :
    List String → Nat → Bool → IncMap →
      Except NitpickError (List String × List Warning × Nat)
  | [], _, in_batch, inc =>
    if in_batch then .ok (sort_includes_batch rel cf filename inc, [], 0) else .ok ([], [], 0)
  | line :: rest, lnum, in_batch, inc =>
    if isIncludeLine line then
      let nb : Nat := if in_batch then 0 else 1
      match HFile.parse line with
      | none => .error (.parseFailure line)
      | some h =>
        match lookupInc (pyLower h.name) inc with
        | some h0 =>
          if h.render = h0.render then
            match siGo rel cf pf filename rest (lnum+1) true inc with
            | .ok (ls, ws, n) =>
              .ok (ls, .dupConsistent h.name filename (lnum+1) h.render :: ws, nb + n)
            | .error e => .error e
          else .error (.inconsistentDup h.name filename (lnum+1) h.render)
        | none =>
          match siGo rel cf pf filename rest (lnum+1) true (inc ++ [(pyLower h.name, h)]) with
          | .ok (ls, ws, n) => .ok (ls, styleWarnings pf filename (lnum+1) h ++ ws, nb + n)
          | .error e => .error e
    else
      if in_batch then
        if pyStrip line ≠ "" then
          match siGo rel cf pf filename rest (lnum+1) false [] with
          | .ok (ls, ws, n) =>
            .ok (sort_includes_batch rel cf filename inc ++ line :: ls, ws, n)
          | .error e => .error e
        else
          siGo rel cf pf filename rest (lnum+1) true inc
      else
        match siGo rel cf pf filename rest (lnum+1) false inc with
        | .ok (ls, ws, n) => .ok (line :: ls, ws, n)
        | .error e => .error e

/-- `sort_includes(filename, lines)`: the returned line sequence plus
the warnings (the multiple-batches warning is emitted after the
loop). -/

def sort_includes (rel : String → String) (cf : String → String → Bool → IncType)
    (pf : String → Bool) (filename : String) (lines : List String) :
    Except NitpickError (List String × List Warning) :=
  match siGo rel cf pf filename lines 0 false [] with
  | .ok (ls, ws, n) => .ok (ls, ws ++ (if n > 1 then [.multiBatch filename] else []))
  | .error e => .error e

/-- The multi-file driver `stylify(args, files)` (restricted to the
`sort_includes` module; file contents are injected as line lists): each
file is processed under `try/except RuntimeError`, a caught error skips
the file (`none`) and processing continues; any other exception
propagates. -/

def stylify (rel : String → String) (cf : String → String → Bool → IncType)
    (pf : String → Bool) :
    List (String × List String) → Except NitpickError (List (String × Option (List String)))
  | [] => .ok []
  | (fn, ls) :: rest =>
    match sort_includes rel cf pf fn ls with
    | .ok (out, _) => (stylify rel cf pf rest).map (fun acc => (fn, some out) :: acc)
    | .error e =>
      if e.isRuntimeError then (stylify rel cf pf rest).map (fun acc => (fn, none) :: acc)
      else .error e

/-! ### Renderer facts -/

/-- The value list of the first `by_type` entry for type `t` (empty when
absent). -/
def groupOf (t : IncType) : List (IncType × List String) → List String
  | [] => []
  | (t', ls) :: rest => if t' = t then ls else groupOf t rest

/-- What one `for inc_type in by_type.keys(): if inc_type in sections`
pass extends: the concatenation of the value lists of all entries whose
type lies in `secs`, in insertion order. -/

def pick (secs : List IncType) : List (IncType × List String) → List String
  | [] => []
  | (t', ls) :: rest => if t' ∈ secs then ls ++ pick secs rest else pick secs rest

/-- The keys of `inc` that the batch sorter places, in sorted order, in
the group of classification `t`. -/

def secKeys (rel : String → String) (cf : String → String → Bool → IncType)
    (fn : String) (inc : IncMap) (t : IncType) : List String :=
  (sortedKeys inc).filter (fun k => (lookupInc k inc).map (effType rel cf fn k) = some t)

def renderKey (inc : IncMap) (k : String) : String :=
  match lookupInc k inc with
  | some h => h.render
  | none => ""

/-- The rendered records of classification `t`, in ascending key
order. -/

def secRender (rel : String → String) (cf : String → String → Bool → IncType)
    (fn : String) (inc : IncMap) (t : IncType) : List String :=
  (secKeys rel cf fn inc t).map (renderKey inc)

/-- The emitted own-header section: both own-header hints merged in
first-insertion order of the two groups. -/

def ownSection (rel : String → String) (cf : String → String → Bool → IncType)
    (fn : String) (inc : IncMap) : List String :=
  pick [.likelyMyHeader, .possibleMyHeader] (buildBT rel cf fn inc)

/-- Invariant of the `by_type` association list as built by
`addByType`: one entry per type, non-empty value lists, no empty
strings. -/
def BTI (bt : List (IncType × List String)) : Prop :=
  (bt.map Prod.fst).Nodup ∧ ∀ p ∈ bt, p.2 ≠ [] ∧ ∀ s ∈ p.2, s ≠ ""

/-- The canonical shape of an emitted batch: each non-empty section in
order, each followed by exactly one blank line. -/
def blockOf : List (List String) → List String
  | [] => []
  | s :: rest => (if s = [] then [] else s ++ [""]) ++ blockOf rest

/-- A deterministic header classifier within the spec's collaborator
contract, reporting a likely own-header for one stem-matching candidate
and a possible own-header for the others. -/
def cfMixed : String → String → Bool → IncType := fun _ nm _ =>
  if nm = "foo/bar.hpp" then .likelyMyHeader else .possibleMyHeader

/-- A path's stem in the spec's sense: the extension-stripped,
separator-normalized form. -/
def stemOf (p : String) : String :=
  normpath (splitextFst p)

/-- The spec's known test-file suffix convention: a trailing `_test` is
removed from a stem. -/
def stripTest (s : String) : String :=
  if "_test".toList.isSuffixOf s.toList then ⟨s.toList.take (s.toList.length - 5)⟩ else s

/-- The spec's same-stem condition, stated from its wording: the stem
of the candidate header must exactly equal the stem of the
(root-overridden) source path after removing the test-file suffix from
the source stem. -/
def sameStem (rel : String → String) (src inc : String) : Prop :=
  stemOf inc = stripTest (stemOf (rel src))

instance (rel : String → String) (src inc : String) : Decidable (sameStem rel src inc) := by
  unfold sameStem
  infer_instance

/-- Invariant of the pending `includes` dict during the line loop:
distinct keys, each key the lower-cased target of its parser-produced
record. -/
def INV (inc : IncMap) : Prop :=
  (inc.map Prod.fst).Nodup ∧ ∀ p ∈ inc, p.1 = pyLower p.2.name ∧ p.2.wf

/-- Re-parsing one emitted line recovers its batch entry. -/

def entryOf (l : String) : Option (String × HFile) :=
  (HFile.parse l).map (fun h => (pyLower h.name, h))

/-- Shapes of line sequences that `sort_includes` emits outside a batch:
passthrough lines and flushed batches with their separators. -/
inductive Canon (rel : String → String) (cf : String → String → Bool → IncType)
    (fn : String) : List String → Prop where
  | nil : Canon rel cf fn []
  | pass (l : String) (O : List String) : isIncludeLine l = false → Canon rel cf fn O →
      Canon rel cf fn (l :: O)
  | flushTerm (inc : IncMap) : INV inc → inc ≠ [] →
      Canon rel cf fn (sort_includes_batch rel cf fn inc)
  | flushCont (inc : IncMap) (l : String) (O : List String) : INV inc → inc ≠ [] →
      isIncludeLine l = false → pyStrip l ≠ "" → Canon rel cf fn O →
      Canon rel cf fn (sort_includes_batch rel cf fn inc ++ l :: O)

/-- Shape of the output of a run that is currently inside a batch with
pending map `inc`: the flush of an extension of `inc`, possibly followed
by a batch-breaking line and a canonical tail. -/

def BatchOut (rel : String → String) (cf : String → String → Bool → IncType) (fn : String)
    (inc : IncMap) (O : List String) : Prop :=
  ∃ extra, INV (inc ++ extra) ∧
    (O = sort_includes_batch rel cf fn (inc ++ extra)
     ∨ ∃ l O', isIncludeLine l = false ∧ pyStrip l ≠ "" ∧ Canon rel cf fn O'
         ∧ O = sort_includes_batch rel cf fn (inc ++ extra) ++ l :: O')

/-- List-prefix test (`beginsWith pat s` iff `pat` is a prefix of `s`). -/
def beginsWith : List Char → List Char → Bool
  | [], _ => true
  | _ :: _, [] => false
  | p :: ps, c :: cs => p = c && beginsWith ps cs

/-- `re.sub(r'\t', r'  ', ...)`: every tab becomes two spaces. -/

def expandTabs : List Char → List Char
  | [] => []
  | c :: rest => if c = '\t' then ' ' :: ' ' :: expandTabs rest else c :: expandTabs rest

/-- `re.sub(r'(\s*$)', r'', ...)`: strip the trailing whitespace run. -/

def dropTrailingWs (s : List Char) : List Char :=
  (s.reverse.dropWhile pyWs).reverse

/-- Generic scanner for the purely zero-width insertion rules: at every
position (reversed prefix, suffix) where the look-around predicate
holds, a single space is inserted; the scanner then advances one
character, as `re.sub` does after an empty match.  Look-arounds read the
original characters. -/

def insertGo (p : List Char → List Char → Bool) : List Char → List Char → List Char
  | _, [] => []
  | rev, c :: rest =>
    if p rev (c :: rest) then ' ' :: c :: insertGo p (c :: rev) rest
    else c :: insertGo p (c :: rev) rest

/-- `semicolon0 = r'(?<=[;,])(?!($|\s))'`. -/

def semi0P (rev suf : List Char) : Bool :=
  match rev, suf with
  | c :: _, d :: _ => (c = ';' || c = ',') && !pyWs d
  | _, _ => false

/-- `semicolon1 = r'(\s*)(?=[;,])'` applied as `re.sub(..., r'', ...)`:
a whitespace character is deleted exactly when the first
non-whitespace character after it is `;` or `,` (the greedy run
matches only whole runs).  The Bool tracks whether the processed suffix
starts, after deletable whitespace, with `;` or `,`. -/

def semi1Go : List Char → List Char × Bool
  | [] => ([], false)
  | c :: s =>
    match semi1Go s with
    | (t, b) =>
      if pyWs c then (if b then t else c :: t, b)
      else (c :: t, c = ';' || c = ',')

def semi1 (s : List Char) : List Char :=
  (semi1Go s).1

/-- `curly_braces = r'(?<=[}])(?=\w)|(?<=[)\w])(?=[{])'`. -/

def curlyP (rev suf : List Char) : Bool :=
  match rev, suf with
  | c :: _, d :: _ =>
    (c = '}' && wordChar d) || ((c = ')' || wordChar c) && d = '{')
  | _, _ => false

/-- `assignment_gt_lt = r'(?<=[\w\"\'])(?=[=<>])|(?<=[=<>])(?=[\w\"\'])'`. -/

def assignP (rev suf : List Char) : Bool :=
  match rev, suf with
  | c :: _, d :: _ =>
    ((wordChar c || c = '"' || c = '\'') && (d = '=' || d = '<' || d = '>'))
      || ((c = '=' || c = '<' || c = '>') && (wordChar d || d = '"' || d = '\''))
  | _, _ => false

/-- The eight two-character operators of `oper_wo_space_in/out`. -/

def twoCharOp (suf : List Char) : Bool :=
  beginsWith ['=', '='] suf || beginsWith ['!', '='] suf || beginsWith ['<', '='] suf
    || beginsWith ['>', '='] suf || beginsWith ['&', '&'] suf || beginsWith ['>', '>'] suf
    || beginsWith ['<', '<'] suf || beginsWith ['|', '|'] suf

/-- `oper_wo_space_in = r'(?<!\s)(?=(==|!=|<=|>=|&&|>>|<<|\|\|))'`. -/

def operInP (rev suf : List Char) : Bool :=
  (match rev with
   | [] => true
   | c :: _ => !pyWs c) && twoCharOp suf

/-- `oper_wo_space_out = r'(?<=(==|!=|<=|>=|&&|>>|<<|\|\|))(?!$|\s)'`. -/

def operOutP (rev suf : List Char) : Bool :=
  (match rev with
   | b :: a :: _ => twoCharOp [a, b]
   | _ => false)
    && (match suf with
        | [] => false
        | d :: _ => !pyWs d)

/-- One keyword of `loops_and_conds`, checked on the reversed prefix:
the reversed keyword, preceded by start of line or a non-word
character. -/

def kwRevAt (rkw : List Char) (rev : List Char) : Bool :=
  beginsWith rkw rev
    && (match rev.drop rkw.length with
        | [] => true
        | d :: _ => !wordChar d)

/-- `loops_and_conds = r'(^|\W)(if|for|while|switch)(?=[(])'` with
replacement `r'\1\2 '`, as the insertion of one space between the
keyword and the `(`. -/

def loopsP (rev suf : List Char) : Bool :=
  (match suf with
   | d :: _ => d = '('
   | [] => false)
    && (kwRevAt ['f', 'i'] rev || kwRevAt ['r', 'o', 'f'] rev
        || kwRevAt ['e', 'l', 'i', 'h', 'w'] rev
        || kwRevAt ['h', 'c', 't', 'i', 'w', 's'] rev)

/-- `comments0 = r'(?<=[/]{2})(?=[\S])'`. -/

def comments0P (rev suf : List Char) : Bool :=
  (match rev with
   | b :: a :: _ => a = '/' && b = '/'
   | _ => false)
    && (match suf with
        | [] => false
        | d :: _ => !pyWs d)

/-- The negative lookbehind `(?<![ ])` on the reversed prefix. -/

def notSpaceBehind (rev : List Char) : Bool :=
  match rev with
  | [] => true
  | r :: _ => !(r = ' ')

/-- The lookbehind `(?<=[/]{2})` on the reversed prefix. -/

def slashes2Behind (rev : List Char) : Bool :=
  match rev with
  | b :: a :: _ => a = '/' && b = '/'
  | _ => false

/-- `comments1 = r'(?<![ ])( ?)(?=[/]{2})'` with replacement two
spaces: an optional single space directly before `//`, not preceded by
another space, becomes two spaces. -/

def comments1Go : List Char → List Char → List Char
  | _, [] => []
  | rev, c :: rest =>
    if notSpaceBehind rev then
      if c = ' ' && beginsWith ['/', '/'] rest then
        ' ' :: ' ' :: comments1Go (c :: rev) rest
      else if beginsWith ['/', '/'] (c :: rest) then
        ' ' :: ' ' :: c :: comments1Go (c :: rev) rest
      else c :: comments1Go (c :: rev) rest
    else c :: comments1Go (c :: rev) rest

/-- `comments2 = r'(?<=[/]{2})(\s*)'` with replacement one space: the
(possibly empty) whitespace run directly after a `//` collapses to a
single space.  `skip` records that the current run has already emitted
its space. -/

def comments2Go (skip : Bool) (rev : List Char) : List Char → List Char
  | [] => if !skip && slashes2Behind rev then [' '] else []
  | c :: rest =>
    if skip then
      if pyWs c then comments2Go true (c :: rev) rest
      else c :: comments2Go false (c :: rev) rest
    else
      if slashes2Behind rev then
        if pyWs c then ' ' :: comments2Go true (c :: rev) rest
        else ' ' :: c :: comments2Go false (c :: rev) rest
      else c :: comments2Go false (c :: rev) rest

/-- `correct_spacing(a_line)`: the eleven regex substitutions applied
in source order. -/

def correct_spacing (s : String) : String :=
  ⟨comments2Go false []
    (comments1Go []
      (insertGo comments0P []
        (insertGo loopsP []
          (insertGo operOutP []
            (insertGo operInP []
              (insertGo assignP []
                (insertGo curlyP []
                  (semi1
                    (insertGo semi0P []
                      (dropTrailingWs (expandTabs s.data)))))))))))⟩

/-- Non-whitespace characters (the content the spacing fixer must not
touch). -/

def nonWs (c : Char) : Bool := !pyWs c

/-- A character list that does not end in a slash (the shape of the
prefix before a line-final `//`). -/
def NoSlashEnd (l : List Char) : Prop :=
  ∀ c, l.getLast? = some c → c ≠ '/'

theorem dropWhile_append_none (p : Char → Bool) :
    ∀ (a : List Char), (∀ c ∈ a, p c = false) → ∀ (b : Char), p b = false →
      ∀ (rest : List Char), (a ++ b :: rest).dropWhile p = a ++ b :: rest
  | [], _, b, hb, rest => by simp [List.dropWhile_cons, hb]
  | c :: cs, h, b, hb, rest => by
    have hc : p c = false := h c (by simp)
    simp only [List.cons_append, List.dropWhile_cons, hc]
    simpa using dropWhile_append_none p cs (fun d hd => h d (by simp [hd])) b hb rest

theorem takeWhile_append_stop (p : Char → Bool) :
    ∀ (a : List Char), (∀ c ∈ a, p c = true) → ∀ (b : Char), p b = false →
      ∀ (rest : List Char), (a ++ b :: rest).takeWhile p = a
  | [], _, b, hb, rest => by simp [List.takeWhile_cons, hb]
  | c :: cs, h, b, hb, rest => by
    have hc : p c = true := h c (by simp)
    simp only [List.cons_append, List.takeWhile_cons, hc]
    simpa using takeWhile_append_stop p cs (fun d hd => h d (by simp [hd])) b hb rest

theorem dropWhile_append_stop (p : Char → Bool) :
    ∀ (a : List Char), (∀ c ∈ a, p c = true) → ∀ (b : Char), p b = false →
      ∀ (rest : List Char), (a ++ b :: rest).dropWhile p = b :: rest
  | [], _, b, hb, rest => by simp [List.dropWhile_cons, hb]
  | c :: cs, h, b, hb, rest => by
    have hc : p c = true := h c (by simp)
    simp only [List.cons_append, List.dropWhile_cons, hc]
    simpa using dropWhile_append_stop p cs (fun d hd => h d (by simp [hd])) b hb rest

/-- Dropping a prefix never crosses a failing element. -/

theorem dropWhile_append_cons (p : Char → Bool) :
    ∀ (x : List Char) (b : Char), p b = false → ∀ (y : List Char),
      (x ++ b :: y).dropWhile p = x.dropWhile p ++ b :: y
  | [], b, hb, y => by simp [List.dropWhile_cons, hb]
  | c :: cs, b, hb, y => by
    by_cases hc : p c = true
    · simp only [List.cons_append, List.dropWhile_cons, hc]
      simpa using dropWhile_append_cons p cs b hb y
    · simp only [List.cons_append, List.dropWhile_cons, Bool.not_eq_true] at *
      simp [hc]

/-- Stripping trailing whitespace never crosses a non-whitespace
element. -/

theorem revdrop_append_cons (b : Char) (hb : pyWs b = false) (a y : List Char) :
    (((a ++ b :: y).reverse).dropWhile pyWs).reverse
      = a ++ b :: ((y.reverse.dropWhile pyWs).reverse) := by
  rw [show (a ++ b :: y).reverse = y.reverse ++ b :: a.reverse by simp,
      dropWhile_append_cons pyWs y.reverse b hb a.reverse]
  simp

/-! ### Round-trip of the record parser -/

theorem parseAfterOpen_wf {sys : Bool} {r : List Char} {h : HFile}
    (hp : parseAfterOpen sys r = some h) : h.wf := by
  unfold parseAfterOpen at hp
  split at hp
  · split at hp
    · cases hp
      intro c hc
      exact List.mem_takeWhile_imp hc
    · simp at hp
  · simp at hp

/-- Any parsed record is well formed: the target group excludes
whitespace and closing delimiters. -/

theorem parse_wf {s : String} {h : HFile} (hp : HFile.parse s = some h) : h.wf := by
  unfold HFile.parse parseInclude at hp
  split at hp
  · split at hp
    · split at hp
      · split at hp
        · split at hp
          · exact parseAfterOpen_wf hp
          · split at hp
            · exact parseAfterOpen_wf hp
            · simp at hp
        · simp at hp
      · simp at hp
    · simp at hp
  · simp at hp

theorem wf_not_ws {h : HFile} (hw : h.wf) : ∀ c ∈ h.name.toList, pyWs c = false := by
  intro c hc
  have := hw c hc
  unfold nameChar at this
  simp only [Bool.and_eq_true, Bool.not_eq_true'] at this
  exact this.1.1

/-- Rendering a well-formed record parses back to the same record:
serialization is a normal form for the directive parser. -/

theorem parse_render {h : HFile} (hw : h.wf) : HFile.parse h.render = some h := by
  obtain ⟨⟨nm⟩, sys, ⟨post⟩⟩ := h
  have hnws : ∀ c ∈ nm, pyWs c = false := wf_not_ws hw
  have hnnc : ∀ c ∈ nm, nameChar c = true := hw
  cases sys with
  | true =>
    have hren : (HFile.render ⟨⟨nm⟩, true, ⟨post⟩⟩).toList
        = '#' :: 'i' :: 'n' :: 'c' :: 'l' :: 'u' :: 'd' :: 'e' :: ' ' :: '<' ::
          (nm ++ '>' :: post) := by
      show (("#include <" ++ ⟨nm⟩ ++ ">" : String) ++ (⟨post⟩ : String)).toList = _
      simp [String.toList, String.data_append]
    show parseInclude (HFile.render ⟨⟨nm⟩, true, ⟨post⟩⟩).toList = _
    rw [hren]
    show parseAfterOpen true (nm ++ '>' :: post) = _
    unfold parseAfterOpen
    rw [dropWhile_append_none pyWs nm hnws '>' (by decide) post,
        dropWhile_append_stop nameChar nm hnnc '>' (by decide) post,
        takeWhile_append_stop nameChar nm hnnc '>' (by decide) post]
    rfl
  | false =>
    have hren : (HFile.render ⟨⟨nm⟩, false, ⟨post⟩⟩).toList
        = '#' :: 'i' :: 'n' :: 'c' :: 'l' :: 'u' :: 'd' :: 'e' :: ' ' :: '"' ::
          (nm ++ '"' :: post) := by
      show (("#include \"" ++ ⟨nm⟩ ++ "\"" : String) ++ (⟨post⟩ : String)).toList = _
      simp [String.toList, String.data_append]
    show parseInclude (HFile.render ⟨⟨nm⟩, false, ⟨post⟩⟩).toList = _
    rw [hren]
    show parseAfterOpen false (nm ++ '"' :: post) = _
    unfold parseAfterOpen
    rw [dropWhile_append_none pyWs nm hnws '"' (by decide) post,
        dropWhile_append_stop nameChar nm hnnc '"' (by decide) post,
        takeWhile_append_stop nameChar nm hnnc '"' (by decide) post]
    rfl

/-- The renderer of a well-formed record produces an include line in the
sense of the `startswith` guard. -/

theorem isIncludeLine_render {h : HFile} (hw : h.wf) : isIncludeLine h.render = true := by
  obtain ⟨⟨nm⟩, sys, ⟨post⟩⟩ := h
  cases sys with
  | true =>
    have hren : (HFile.render ⟨⟨nm⟩, true, ⟨post⟩⟩).toList
        = ('#' :: 'i' :: 'n' :: 'c' :: 'l' :: 'u' :: 'd' :: 'e' :: ' ' :: '<' :: nm)
          ++ '>' :: post := by
      show (("#include <" ++ ⟨nm⟩ ++ ">" : String) ++ (⟨post⟩ : String)).toList = _
      simp [String.toList, String.data_append]
    unfold isIncludeLine
    rw [hren]
    unfold pyStripList
    rw [show ((('#' :: 'i' :: 'n' :: 'c' :: 'l' :: 'u' :: 'd' :: 'e' :: ' ' :: '<' :: nm)
          ++ '>' :: post).dropWhile pyWs)
        = ('#' :: 'i' :: 'n' :: 'c' :: 'l' :: 'u' :: 'd' :: 'e' :: ' ' :: '<' :: nm)
          ++ '>' :: post from rfl]
    rw [revdrop_append_cons '>' (by decide)
      ('#' :: 'i' :: 'n' :: 'c' :: 'l' :: 'u' :: 'd' :: 'e' :: ' ' :: '<' :: nm) post]
    rfl
  | false =>
    have hren : (HFile.render ⟨⟨nm⟩, false, ⟨post⟩⟩).toList
        = ('#' :: 'i' :: 'n' :: 'c' :: 'l' :: 'u' :: 'd' :: 'e' :: ' ' :: '"' :: nm)
          ++ '"' :: post := by
      show (("#include \"" ++ ⟨nm⟩ ++ "\"" : String) ++ (⟨post⟩ : String)).toList = _
      simp [String.toList, String.data_append]
    unfold isIncludeLine
    rw [hren]
    unfold pyStripList
    rw [show ((('#' :: 'i' :: 'n' :: 'c' :: 'l' :: 'u' :: 'd' :: 'e' :: ' ' :: '"' :: nm)
          ++ '"' :: post).dropWhile pyWs)
        = ('#' :: 'i' :: 'n' :: 'c' :: 'l' :: 'u' :: 'd' :: 'e' :: ' ' :: '"' :: nm)
          ++ '"' :: post from rfl]
    rw [revdrop_append_cons '"' (by decide)
      ('#' :: 'i' :: 'n' :: 'c' :: 'l' :: 'u' :: 'd' :: 'e' :: ' ' :: '"' :: nm) post]
    rfl

/-! ### Path helpers (`os.path` on posix) used by `is_own_header` -/

theorem string_ext {s t : String} (h : s.data = t.data) : s = t := by
  cases s; cases t; exact congrArg String.mk h

theorem append_marker_cancel (m : Char) :
    ∀ (a b rest1 rest2 : List Char), (∀ c ∈ a, c ≠ m) → (∀ c ∈ b, c ≠ m) →
      a ++ m :: rest1 = b ++ m :: rest2 → a = b ∧ rest1 = rest2
  | [], [], r1, r2, _, _, he => by simpa using he
  | [], c :: b', r1, r2, _, hb, he => by
    simp only [List.nil_append, List.cons_append, List.cons.injEq] at he
    exact absurd he.1.symm (hb c (by simp))
  | c :: a', [], r1, r2, ha, _, he => by
    simp only [List.nil_append, List.cons_append, List.cons.injEq] at he
    exact absurd he.1 (ha c (by simp))
  | c :: a', d :: b', r1, r2, ha, hb, he => by
    simp only [List.cons_append, List.cons.injEq] at he
    obtain ⟨rfl, he2⟩ := he
    obtain ⟨h1, h2⟩ := append_marker_cancel m a' b' r1 r2
      (fun x hx => ha x (by simp [hx])) (fun x hx => hb x (by simp [hx])) he2
    exact ⟨by rw [h1], h2⟩

theorem wf_not_delim {h : HFile} (hw : h.wf) :
    ∀ c ∈ h.name.toList, c ≠ '>' ∧ c ≠ '"' := by
  intro c hc
  have := hw c hc
  unfold nameChar at this
  simp only [Bool.and_eq_true, bne_iff_ne, ne_eq, decide_eq_true_eq] at this
  exact ⟨this.1.2, this.2⟩

/-- Records with the same delimiter style and trailer render equally iff
their targets agree (parser-produced targets cannot contain the closing
delimiter). -/

theorem render_inj {h1 h2 : HFile} (w1 : h1.wf) (w2 : h2.wf)
    (hsys : h1.is_system = h2.is_system) (hpost : h1.post_str = h2.post_str)
    (hr : h1.render = h2.render) : h1.name = h2.name := by
  obtain ⟨n1, sys1, p1⟩ := h1
  obtain ⟨n2, sys2, p2⟩ := h2
  simp only at hsys hpost
  subst hsys hpost
  have d1 := fun c hc => (wf_not_delim w1 c hc).1
  have d2 := fun c hc => (wf_not_delim w2 c hc).1
  have q1 := fun c hc => (wf_not_delim w1 c hc).2
  have q2 := fun c hc => (wf_not_delim w2 c hc).2
  cases sys1 with
  | true =>
    have he : ("#include <" ++ n1 ++ ">" ++ p1 : String).data
        = ("#include <" ++ n2 ++ ">" ++ p1 : String).data := by
      have := congrArg String.data hr
      simpa [HFile.render] using this
    simp only [String.data_append, List.append_assoc, List.singleton_append] at he
    have he2 := List.append_cancel_left he
    exact string_ext (append_marker_cancel '>' n1.data n2.data p1.data p1.data d1 d2 he2).1
  | false =>
    have he : ("#include \"" ++ n1 ++ "\"" ++ p1 : String).data
        = ("#include \"" ++ n2 ++ "\"" ++ p1 : String).data := by
      have := congrArg String.data hr
      simpa [HFile.render] using this
    simp only [String.data_append, List.append_assoc, List.singleton_append] at he
    have he2 := List.append_cancel_left he
    exact string_ext (append_marker_cancel '"' n1.data n2.data p1.data p1.data q1 q2 he2).1

theorem render_ne_empty (h : HFile) : h.render ≠ "" := by
  intro he
  have := congrArg String.data he
  obtain ⟨n, sys, p⟩ := h
  cases sys <;> simp [HFile.render, String.data_append] at this

/-- Flushing a one-record batch emits the record and the single
batch-boundary blank, whatever its classification. -/

theorem flush_singleton (rel : String → String) (cf : String → String → Bool → IncType)
    (fn k : String) (h : HFile) :
    sort_includes_batch rel cf fn [(k, h)] = [h.render, ""] := by
  have hne := render_ne_empty h
  unfold sort_includes_batch buildBT sortedKeys
  have hsk : (([(k, h)] : IncMap).map Prod.fst).insertionSort keyLe = [k] := rfl
  rw [hsk]
  have hlk : lookupInc k [(k, h)] = some h := by simp [lookupInc]
  simp only [List.foldl_cons, List.foldl_nil, btStep, hlk]
  generalize effType rel cf fn k h = t
  cases t <;>
    simp [sectionsOrder, extendSecs, withSep, addByType, List.foldl_cons, List.foldl_nil, hne]

/-! ### Claim C6: round-trip of the directive record -/

/-- C6, counterexample: a directive line from the repository's own test
suite (`test_preserve_poststr`) parses successfully with its delimiter
style and trailer unmodified, yet re-serializing the record does not
reproduce the line byte-for-byte (internal whitespace is normalized). -/

theorem C6_counterexample :
    HFile.parse "#include\t<\tglog/logging.h\t>\t//for logging"
      = some ⟨"glog/logging.h", true, "\t//for logging"⟩
    ∧ HFile.render ⟨"glog/logging.h", true, "\t//for logging"⟩
        = "#include <glog/logging.h>\t//for logging"
    ∧ "#include <glog/logging.h>\t//for logging"
        ≠ "#include\t<\tglog/logging.h\t>\t//for logging" := by
  refine ⟨by decide, by decide, by decide⟩

/-- C6 (amended): for every line accepted by the directive parser,
re-serializing the parsed record via `renderedForm` yields a line that
parses back to the identical record; the rendered form is byte-identical
to the input exactly when the input already uses the canonical internal
spacing, and rendering is always a fixed point of parse-then-render. -/

theorem C6_roundtrip (s : String) (h : HFile) (hp : HFile.parse s = some h) :
    HFile.parse h.render = some h ∧ (HFile.parse s).map HFile.render = some h.render := by
  refine ⟨parse_render (parse_wf hp), by rw [hp]; rfl⟩

theorem C6_roundtrip_witness :
    HFile.parse "#include <a.h>  // x" = some ⟨"a.h", true, "  // x"⟩
    ∧ HFile.parse (HFile.render ⟨"a.h", true, "  // x"⟩) = some ⟨"a.h", true, "  // x"⟩ := by
  refine ⟨by decide, (C6_roundtrip "#include <a.h>  // x" ⟨"a.h", true, "  // x"⟩ (by decide)).1⟩

/-! ### Claim C10: case-insensitive duplicate keys with case-sensitive
rendered-form comparison -/

/-- C10: two directive lines in one batch with the same delimiter style
and trailer whose targets differ only in letter case collide on the
lower-cased key but fail the (case-sensitive) rendered-form equality, so
`sort_includes` fails fatally with the inconsistent-duplicate error and
produces no output lines for the file. -/

theorem C10_case_dup (rel : String → String) (cf : String → String → Bool → IncType)
    (pf : String → Bool) (fn l1 l2 : String) (h1 h2 : HFile)
    (i1 : isIncludeLine l1 = true) (i2 : isIncludeLine l2 = true)
    (p1 : HFile.parse l1 = some h1) (p2 : HFile.parse l2 = some h2)
    (hsys : h1.is_system = h2.is_system) (hpost : h1.post_str = h2.post_str)
    (hne : h1.name ≠ h2.name) (hlow : pyLower h1.name = pyLower h2.name) :
    sort_includes rel cf pf fn [l1, l2]
      = .error (.inconsistentDup h2.name fn 2 h2.render) := by
  have hrne : ¬ (h2.render = h1.render) := fun hr =>
    hne (render_inj (parse_wf p1) (parse_wf p2) hsys hpost hr.symm)
  unfold sort_includes
  unfold siGo
  rw [i1]
  simp only [p1]
  have hl0 : lookupInc (pyLower h1.name) ([] : IncMap) = none := rfl
  rw [hl0]
  unfold siGo
  rw [i2]
  simp only [p2]
  have hl1 : lookupInc (pyLower h2.name) ([(pyLower h1.name, h1)] : IncMap) = some h1 := by
    simp [lookupInc, hlow]
  simp only [List.nil_append, hl1, if_neg hrne]
  simp

theorem C10_case_dup_witness :
    sort_includes id (fun _ _ _ => .otherHeader) (fun _ => false) "f.cc"
        ["#include <Foo.h>", "#include <foo.h>"]
      = .error (.inconsistentDup "foo.h" "f.cc" 2 "#include <foo.h>") := by
  have := C10_case_dup id (fun _ _ _ => .otherHeader) (fun _ => false) "f.cc"
    "#include <Foo.h>" "#include <foo.h>" ⟨"Foo.h", true, ""⟩ ⟨"foo.h", true, ""⟩
    (by decide) (by decide) (by decide) (by decide) rfl rfl (by decide) (by decide)
  simpa using this

/-! ### Claim C3: duplicate directives within a batch -/

/-- C3: a second directive whose lower-cased target key already exists
in the batch either (a) renders byte-identically to the stored record,
in which case the file is processed successfully, the original record is
kept and emitted exactly once, and exactly one non-fatal warning is
issued carrying the repeated name, the file, the 1-based line number of
the repetition, and its rendered form; or (b) renders differently, in
which case processing fails fatally with those same data and no output
line sequence is produced. -/

theorem C3_duplicate (rel : String → String) (cf : String → String → Bool → IncType)
    (pf : String → Bool) (fn l1 l2 : String) (h1 h2 : HFile)
    (i1 : isIncludeLine l1 = true) (i2 : isIncludeLine l2 = true)
    (p1 : HFile.parse l1 = some h1) (p2 : HFile.parse l2 = some h2)
    (hkey : pyLower h2.name = pyLower h1.name) :
    (h2.render = h1.render →
      sort_includes rel cf pf fn [l1, l2]
        = .ok ([h1.render, ""],
            styleWarnings pf fn 1 h1 ++ [.dupConsistent h2.name fn 2 h2.render]))
    ∧ (h2.render ≠ h1.render →
      sort_includes rel cf pf fn [l1, l2]
        = .error (.inconsistentDup h2.name fn 2 h2.render)) := by
  have hl1 : lookupInc (pyLower h2.name) ([(pyLower h1.name, h1)] : IncMap) = some h1 := by
    simp [lookupInc, hkey]
  constructor
  · intro hre
    unfold sort_includes
    unfold siGo
    rw [i1]
    simp only [p1]
    have hl0 : lookupInc (pyLower h1.name) ([] : IncMap) = none := rfl
    rw [hl0]
    unfold siGo
    rw [i2]
    simp only [p2, List.nil_append, hl1, if_pos hre]
    unfold siGo
    simp [flush_singleton]
  · intro hre
    unfold sort_includes
    unfold siGo
    rw [i1]
    simp only [p1]
    have hl0 : lookupInc (pyLower h1.name) ([] : IncMap) = none := rfl
    rw [hl0]
    unfold siGo
    rw [i2]
    simp only [p2, List.nil_append, hl1, if_neg hre]
    simp

theorem C3_duplicate_witness :
    sort_includes id (fun _ _ _ => .otherHeader) (fun _ => false) "f.cc"
        ["#include <a.h>", "#include  <a.h>"]
      = .ok (["#include <a.h>", ""],
          [.dupConsistent "a.h" "f.cc" 2 "#include <a.h>"])
    ∧ sort_includes id (fun _ _ _ => .otherHeader) (fun _ => false) "f.cc"
        ["#include <a.h>", "#include <a.h>  // y"]
      = .error (.inconsistentDup "a.h" "f.cc" 2 "#include <a.h>  // y") := by
  constructor
  · have := (C3_duplicate id (fun _ _ _ => .otherHeader) (fun _ => false) "f.cc"
      "#include <a.h>" "#include  <a.h>" ⟨"a.h", true, ""⟩ ⟨"a.h", true, ""⟩
      (by decide) (by decide) (by decide) (by decide) rfl).1 rfl
    simpa using this
  · have := (C3_duplicate id (fun _ _ _ => .otherHeader) (fun _ => false) "f.cc"
      "#include <a.h>" "#include <a.h>  // y" ⟨"a.h", true, ""⟩ ⟨"a.h", true, "  // y"⟩
      (by decide) (by decide) (by decide) (by decide) rfl).2 (by decide)
    simpa using this

/-! ### Claim C4: malformed directive lines -/

/-- C4, counterexample: a file whose first line passes the
include-marker heuristic but fails the directive pattern makes the whole
driver run abort with the parse failure, instead of being skipped like
an inconsistent-duplicate file (second conjunct: the duplicate error IS
skipped and the next file still gets processed). -/

theorem C4_counterexample :
    stylify id (fun _ _ _ => .otherHeader) (fun _ => false)
        [("a.cc", ["#include <"]), ("b.cc", ["int x;"])]
      = .error (.parseFailure "#include <")
    ∧ stylify id (fun _ _ _ => .otherHeader) (fun _ => false)
        [("a.cc", ["#include <x>", "#include <x>  // y"]), ("b.cc", ["int x;"])]
      = .ok [("a.cc", none), ("b.cc", some ["int x;"])] := by
  refine ⟨rfl, rfl⟩

/-- C4 (amended): a line that passes the include-marker heuristic but
cannot be decomposed by the directive pattern aborts the file fatally
with a parse failure and no output is produced for that file; but unlike
the inconsistent-duplicate error (a `RuntimeError` raised via `err`),
this parse failure is a plain `Exception`, which the multi-file driver's
`except RuntimeError` does not catch: the error propagates out of the
driver and ends the whole run, while an inconsistent-duplicate error is
caught, the file is skipped, and processing continues with the remaining
files. -/

theorem C4_parse_error (rel : String → String) (cf : String → String → Bool → IncType)
    (pf : String → Bool) (fn line : String) (ls : List String)
    (rest : List (String × List String))
    (hi : isIncludeLine line = true) (hp : HFile.parse line = none) :
    sort_includes rel cf pf fn (line :: ls) = .error (.parseFailure line)
    ∧ (NitpickError.parseFailure line).isRuntimeError = false
    ∧ stylify rel cf pf ((fn, line :: ls) :: rest) = .error (.parseFailure line)
    ∧ (∀ (fn2 : String) (ls2 : List String) (e : NitpickError),
        sort_includes rel cf pf fn2 ls2 = .error e → e.isRuntimeError = true →
        stylify rel cf pf ((fn2, ls2) :: rest)
          = (stylify rel cf pf rest).map (fun acc => (fn2, none) :: acc)) := by
  have hsi : sort_includes rel cf pf fn (line :: ls) = .error (.parseFailure line) := by
    unfold sort_includes
    unfold siGo
    rw [hi]
    simp only [hp]
    simp
  refine ⟨hsi, rfl, ?_, ?_⟩
  · have hu : stylify rel cf pf ((fn, line :: ls) :: rest)
        = match sort_includes rel cf pf fn (line :: ls) with
          | .ok (out, _) => (stylify rel cf pf rest).map (fun acc => (fn, some out) :: acc)
          | .error e =>
            if e.isRuntimeError then
              (stylify rel cf pf rest).map (fun acc => (fn, none) :: acc)
            else .error e := rfl
    rw [hu, hsi]
    simp [NitpickError.isRuntimeError]
  · intro fn2 ls2 e hse hrt
    have hu : stylify rel cf pf ((fn2, ls2) :: rest)
        = match sort_includes rel cf pf fn2 ls2 with
          | .ok (out, _) => (stylify rel cf pf rest).map (fun acc => (fn2, some out) :: acc)
          | .error e =>
            if e.isRuntimeError then
              (stylify rel cf pf rest).map (fun acc => (fn2, none) :: acc)
            else .error e := rfl
    rw [hu, hse]
    simp [hrt]

/-! ### Structure of a flushed batch (claims C2 and C5) -/

theorem groupOf_addByType (t t' : IncType) (s : String) (bt : List (IncType × List String)) :
    groupOf t (addByType bt t' s) = if t = t' then groupOf t bt ++ [s] else groupOf t bt := by
  induction bt with
  | nil =>
    by_cases h : t = t'
    · subst h; simp [groupOf, addByType]
    · have h2 : ¬ t' = t := fun he => h he.symm
      simp [groupOf, addByType, h, h2]
  | cons q rest ih =>
    obtain ⟨t0, ls⟩ := q
    by_cases h0 : t0 = t'
    · subst h0
      by_cases h1 : t0 = t
      · subst h1
        simp [addByType, groupOf]
      · have h2 : ¬ t = t0 := fun he => h1 he.symm
        simp [addByType, groupOf, h1, h2]
    · by_cases h1 : t0 = t
      · subst h1
        simp [addByType, groupOf, h0]
      · have h2 : ¬ t = t0 := fun he => h1 he.symm
        simp [addByType, groupOf, h0, h1, h2, ih]

theorem addByType_fst_mem (t' : IncType) (s : String) (bt : List (IncType × List String))
    (hm : t' ∈ bt.map Prod.fst) :
    (addByType bt t' s).map Prod.fst = bt.map Prod.fst := by
  induction bt with
  | nil => simp at hm
  | cons p rest ih =>
    obtain ⟨t0, ls⟩ := p
    by_cases h0 : t0 = t'
    · simp [addByType, h0]
    · have : t' ∈ rest.map Prod.fst := by
        rcases List.mem_cons.mp hm with h | h
        · exact absurd h.symm h0
        · exact h
      simp [addByType, h0, ih this]

theorem addByType_fst_not_mem (t' : IncType) (s : String) (bt : List (IncType × List String))
    (hm : t' ∉ bt.map Prod.fst) :
    (addByType bt t' s).map Prod.fst = bt.map Prod.fst ++ [t'] := by
  induction bt with
  | nil => simp [addByType]
  | cons p rest ih =>
    obtain ⟨t0, ls⟩ := p
    have h1 : ¬ (t' = t0) := fun he => hm (by simp [he])
    have h2 : t' ∉ rest.map Prod.fst := fun he => hm (by simp [he])
    have h0 : ¬ (t0 = t') := fun he => h1 he.symm
    simp [addByType, h0, ih h2]

theorem addByType_values (t' : IncType) (s : String) (hs : s ≠ "") :
    ∀ (bt : List (IncType × List String)),
      (∀ p ∈ bt, p.2 ≠ [] ∧ ∀ x ∈ p.2, x ≠ "") →
      ∀ p ∈ addByType bt t' s, p.2 ≠ [] ∧ ∀ x ∈ p.2, x ≠ ""
  | [], _, p, hp => by
    simp only [addByType, List.mem_singleton] at hp
    subst hp
    exact ⟨by simp, by simpa using hs⟩
  | (t0, ls) :: rest, hval, p, hp => by
    by_cases h0 : t0 = t'
    · simp only [addByType, if_pos h0, List.mem_cons] at hp
      rcases hp with rfl | hp
      · refine ⟨by simp, ?_⟩
        intro x hx
        rcases List.mem_append.mp hx with hx | hx
        · exact (hval (t0, ls) (by simp)).2 x hx
        · have : x = s := by simpa using hx
          rw [this]; exact hs
      · exact hval p (by simp [hp])
    · simp only [addByType, if_neg h0, List.mem_cons] at hp
      rcases hp with rfl | hp
      · exact hval (t0, ls) (by simp)
      · exact addByType_values t' s hs rest (fun q hq => hval q (by simp [hq])) p hp

theorem addByType_BTI {bt : List (IncType × List String)} {t' : IncType} {s : String}
    (hb : BTI bt) (hs : s ≠ "") : BTI (addByType bt t' s) := by
  obtain ⟨hnd, hval⟩ := hb
  constructor
  · by_cases hm : t' ∈ bt.map Prod.fst
    · rw [addByType_fst_mem t' s bt hm]; exact hnd
    · rw [addByType_fst_not_mem t' s bt hm]
      simpa [List.nodup_append, hm] using hnd
  · exact addByType_values t' s hs bt hval

theorem foldl_btStep_BTI (rel : String → String) (cf : String → String → Bool → IncType)
    (fn : String) (inc : IncMap) :
    ∀ (ks : List String) (bt0 : List (IncType × List String)), BTI bt0 →
      BTI (ks.foldl (btStep rel cf fn inc) bt0)
  | [], _, hb => hb
  | k :: ks, bt0, hb => by
    rw [List.foldl_cons]
    apply foldl_btStep_BTI rel cf fn inc ks
    unfold btStep
    cases hlk : lookupInc k inc with
    | none => exact hb
    | some h => exact addByType_BTI hb (render_ne_empty h)

theorem buildBT_BTI (rel : String → String) (cf : String → String → Bool → IncType)
    (fn : String) (inc : IncMap) : BTI (buildBT rel cf fn inc) :=
  foldl_btStep_BTI rel cf fn inc (sortedKeys inc) [] ⟨List.nodup_nil, by simp⟩

theorem groupOf_foldl (rel : String → String) (cf : String → String → Bool → IncType)
    (fn : String) (inc : IncMap) (t : IncType) :
    ∀ (ks : List String) (bt0 : List (IncType × List String)),
      groupOf t (ks.foldl (btStep rel cf fn inc) bt0)
        = groupOf t bt0
          ++ (ks.filter
                (fun k => (lookupInc k inc).map (effType rel cf fn k) = some t)).map
              (renderKey inc)
  | [], bt0 => by simp
  | k :: ks, bt0 => by
    rw [List.foldl_cons, groupOf_foldl rel cf fn inc t ks]
    cases hlk : lookupInc k inc with
    | none =>
      have hq : ¬ ((lookupInc k inc).map (effType rel cf fn k) = some t) := by
        simp [hlk]
      simp [btStep, hlk, List.filter_cons, hq]
    | some h =>
      unfold btStep
      rw [hlk, groupOf_addByType]
      by_cases he : effType rel cf fn k h = t
      · rw [if_pos he.symm,
            List.filter_cons_of_pos (by simp [hlk, he]),
            List.map_cons,
            show renderKey inc k = h.render from by simp [renderKey, hlk]]
        simp
      · rw [if_neg (fun x : t = effType rel cf fn k h => he x.symm),
            List.filter_cons_of_neg (by simp [hlk, he])]

/-- The group of classification `t` in the constructed `by_type` dict is
exactly the rendered records of that classification, in ascending key
order. -/

theorem groupOf_buildBT (rel : String → String) (cf : String → String → Bool → IncType)
    (fn : String) (inc : IncMap) (t : IncType) :
    groupOf t (buildBT rel cf fn inc) = secRender rel cf fn inc t := by
  unfold buildBT secRender secKeys
  rw [groupOf_foldl]
  simp [groupOf]

theorem groupOf_nil_of_not_mem (t : IncType) :
    ∀ (bt : List (IncType × List String)), t ∉ bt.map Prod.fst → groupOf t bt = []
  | [], _ => rfl
  | (t0, ls) :: rest, hm => by
    have h0 : ¬ (t0 = t) := fun he => hm (by simp [he])
    simp only [groupOf, if_neg h0]
    exact groupOf_nil_of_not_mem t rest (fun he => hm (by simp [he]))

theorem pick_nil_of_not_mem (t : IncType) :
    ∀ (bt : List (IncType × List String)), t ∉ bt.map Prod.fst → pick [t] bt = []
  | [], _ => rfl
  | (t0, ls) :: rest, hm => by
    have h0 : ¬ (t0 ∈ [t]) := by
      simp only [List.mem_singleton]
      exact fun he => hm (by simp [he])
    simp only [pick, if_neg h0]
    exact pick_nil_of_not_mem t rest (fun he => hm (by simp [he]))

theorem pick_singleton (t : IncType) :
    ∀ (bt : List (IncType × List String)), (bt.map Prod.fst).Nodup →
      pick [t] bt = groupOf t bt
  | [], _ => rfl
  | (t0, ls) :: rest, hnd => by
    have hnd2 : (rest.map Prod.fst).Nodup := by
      simpa [List.nodup_cons] using (List.nodup_cons.mp (by simpa using hnd)).2
    have ht0 : t0 ∉ rest.map Prod.fst := (List.nodup_cons.mp (by simpa using hnd)).1
    by_cases h0 : t0 = t
    · subst h0
      simp only [pick, groupOf, List.mem_singleton, if_pos rfl]
      rw [pick_nil_of_not_mem t0 rest ht0]
      simp
    · have h0m : ¬ (t0 ∈ [t]) := by simpa using h0
      simp only [pick, groupOf, if_neg h0m, if_neg h0]
      exact pick_singleton t rest hnd2

theorem pick_pair_drop_left (a b : IncType) :
    ∀ (bt : List (IncType × List String)), a ∉ bt.map Prod.fst →
      pick [a, b] bt = pick [b] bt
  | [], _ => rfl
  | (t0, ls) :: rest, hm => by
    have h0 : ¬ (t0 = a) := fun he => hm (by simp [he])
    have ih := pick_pair_drop_left a b rest (fun he => hm (by simp [he]))
    by_cases hb : t0 = b
    · have hmem : t0 ∈ [a, b] := by simp [hb]
      have hmem2 : t0 ∈ [b] := by simp [hb]
      simp only [pick, if_pos hmem, if_pos hmem2, ih]
    · have hmem : ¬ (t0 ∈ [a, b]) := by simp [h0, hb]
      have hmem2 : ¬ (t0 ∈ [b]) := by simp [hb]
      simp only [pick, if_neg hmem, if_neg hmem2, ih]

theorem pick_pair_drop_right (a b : IncType) :
    ∀ (bt : List (IncType × List String)), b ∉ bt.map Prod.fst →
      pick [a, b] bt = pick [a] bt
  | [], _ => rfl
  | (t0, ls) :: rest, hm => by
    have h0 : ¬ (t0 = b) := fun he => hm (by simp [he])
    have ih := pick_pair_drop_right a b rest (fun he => hm (by simp [he]))
    by_cases ha : t0 = a
    · have hmem : t0 ∈ [a, b] := by simp [ha]
      have hmem2 : t0 ∈ [a] := by simp [ha]
      simp only [pick, if_pos hmem, if_pos hmem2, ih]
    · have hmem : ¬ (t0 ∈ [a, b]) := by simp [ha, h0]
      have hmem2 : ¬ (t0 ∈ [a]) := by simp [ha]
      simp only [pick, if_neg hmem, if_neg hmem2, ih]

theorem pick_pair_perm (a b : IncType) (hab : a ≠ b) :
    ∀ (bt : List (IncType × List String)), (bt.map Prod.fst).Nodup →
      List.Perm (pick [a, b] bt) (groupOf a bt ++ groupOf b bt)
  | [], _ => by simp [pick, groupOf]
  | (t0, ls) :: rest, hnd => by
    have hnd2 : (rest.map Prod.fst).Nodup := (List.nodup_cons.mp (by simpa using hnd)).2
    have ht0 : t0 ∉ rest.map Prod.fst := (List.nodup_cons.mp (by simpa using hnd)).1
    by_cases ha : t0 = a
    · subst ha
      rw [show pick [t0, b] ((t0, ls) :: rest) = ls ++ pick [t0, b] rest from by
            simp [pick],
          pick_pair_drop_left t0 b rest ht0, pick_singleton b rest hnd2]
      simp only [groupOf, if_pos rfl, if_neg hab]
      exact List.Perm.refl _
    · by_cases hb : t0 = b
      · subst hb
        rw [show pick [a, t0] ((t0, ls) :: rest) = ls ++ pick [a, t0] rest from by
              simp [pick],
            pick_pair_drop_right a t0 rest ht0, pick_singleton a rest hnd2]
        simp only [groupOf, if_pos rfl, if_neg ha]
        exact List.perm_append_comm
      · have hmem : ¬ (t0 ∈ [a, b]) := by simp [ha, hb]
        simp only [pick, if_neg hmem, groupOf, if_neg ha, if_neg hb]
        exact pick_pair_perm a b hab rest hnd2

theorem extendSecs_eq (secs : List IncType) :
    ∀ (bt : List (IncType × List String)) (acc : List String),
      extendSecs bt secs acc = acc ++ pick secs bt
  | [], acc => by simp [extendSecs, pick]
  | (t0, ls) :: rest, acc => by
    by_cases h : t0 ∈ secs
    · have ih := extendSecs_eq secs rest (acc ++ ls)
      unfold extendSecs at ih ⊢
      simp only [List.foldl_cons, if_pos h]
      rw [ih]
      simp [pick, h]
    · have ih := extendSecs_eq secs rest acc
      unfold extendSecs at ih ⊢
      simp only [List.foldl_cons, if_neg h]
      rw [ih]
      simp [pick, h]

theorem withSep_stable (acc : List String) (hinv : acc = [] ∨ acc.getLast? = some "") :
    withSep acc = acc := by
  rcases hinv with rfl | hl
  · rfl
  · unfold withSep
    rw [hl]
    simp

theorem foldl_withSep :
    ∀ (ss : List (List String)) (acc : List String),
      (acc = [] ∨ acc.getLast? = some "") → (∀ s ∈ ss, ∀ x ∈ s, x ≠ "") →
      ss.foldl (fun a s => withSep (a ++ s)) acc = acc ++ blockOf ss
  | [], acc, _, _ => by simp [blockOf]
  | s :: rest, acc, hinv, hne => by
    rw [List.foldl_cons]
    by_cases hs : s = []
    · subst hs
      rw [List.append_nil, withSep_stable acc hinv,
          foldl_withSep rest acc hinv (fun q hq => hne q (by simp [hq]))]
      simp [blockOf]
    · obtain ⟨x, hx⟩ : ∃ x, s.getLast? = some x := by
        cases hxx : s.getLast? with
        | none => exact absurd (List.getLast?_eq_none_iff.mp hxx) hs
        | some y => exact ⟨y, rfl⟩
      have hxs : x ∈ s := by
        obtain ⟨hh, hh2⟩ := List.mem_getLast?_eq_getLast (l := s) (x := x) (by rw [hx]; rfl)
        rw [hh2]
        exact List.getLast_mem hh
      have hxne : x ≠ "" := hne s (by simp) x hxs
      have hws : withSep (acc ++ s) = (acc ++ s) ++ [""] := by
        unfold withSep
        rw [List.getLast?_append_of_ne_nil acc hs, hx]
        simp [hxne]
      rw [hws, foldl_withSep rest ((acc ++ s) ++ [""])
            (Or.inr (by rw [List.getLast?_append_of_ne_nil _ (by simp)]; rfl))
            (fun q hq => hne q (by simp [hq]))]
      simp [blockOf, hs, List.append_assoc]

theorem mem_pick (secs : List IncType) :
    ∀ (bt : List (IncType × List String)) (x : String), x ∈ pick secs bt →
      ∃ p ∈ bt, x ∈ p.2
  | [], x, hx => by simp [pick] at hx
  | (t0, ls) :: rest, x, hx => by
    by_cases h : t0 ∈ secs
    · rw [show pick secs ((t0, ls) :: rest) = ls ++ pick secs rest from by simp [pick, h]] at hx
      rcases List.mem_append.mp hx with hx | hx
      · exact ⟨(t0, ls), by simp, hx⟩
      · obtain ⟨p, hp, hxp⟩ := mem_pick secs rest x hx
        exact ⟨p, by simp [hp], hxp⟩
    · rw [show pick secs ((t0, ls) :: rest) = pick secs rest from by simp [pick, h]] at hx
      obtain ⟨p, hp, hxp⟩ := mem_pick secs rest x hx
      exact ⟨p, by simp [hp], hxp⟩

theorem pick_no_empty {bt : List (IncType × List String)} (hb : BTI bt)
    (secs : List IncType) : ∀ x ∈ pick secs bt, x ≠ "" := by
  intro x hx
  obtain ⟨p, hp, hxp⟩ := mem_pick secs bt x hx
  exact (hb.2 p hp).2 x hxp

/-- The flushed batch is exactly: own-header section, C-system section,
C++-system section, external-library section, project section — each in
ascending-key rendered form (the own-header section in its two
first-insertion-ordered groups), each non-empty section followed by
exactly one blank line, and nothing else. -/

theorem flush_structure (rel : String → String) (cf : String → String → Bool → IncType)
    (fn : String) (inc : IncMap) :
    sort_includes_batch rel cf fn inc
      = blockOf [ownSection rel cf fn inc,
          secRender rel cf fn inc .cSysHeader,
          secRender rel cf fn inc .cppSysHeader,
          secRender rel cf fn inc .libsHeader,
          secRender rel cf fn inc .otherHeader] := by
  have hb := buildBT_BTI rel cf fn inc
  have hfold : sort_includes_batch rel cf fn inc
      = [pick [.likelyMyHeader, .possibleMyHeader] (buildBT rel cf fn inc),
         pick [.cSysHeader] (buildBT rel cf fn inc),
         pick [.cppSysHeader] (buildBT rel cf fn inc),
         pick [.libsHeader] (buildBT rel cf fn inc),
         pick [.otherHeader] (buildBT rel cf fn inc)].foldl
          (fun a s => withSep (a ++ s)) [] := by
    simp only [sort_includes_batch, sectionsOrder, List.foldl_cons, List.foldl_nil,
      extendSecs_eq]
  rw [hfold, foldl_withSep _ [] (Or.inl rfl) ?hne]
  case hne =>
    intro s hs x hxs
    have : ∃ secs, s = pick secs (buildBT rel cf fn inc) := by
      simp only [List.mem_cons, List.not_mem_nil, or_false] at hs
      rcases hs with rfl | rfl | rfl | rfl | rfl
      · exact ⟨_, rfl⟩
      · exact ⟨_, rfl⟩
      · exact ⟨_, rfl⟩
      · exact ⟨_, rfl⟩
      · exact ⟨_, rfl⟩
    obtain ⟨secs, rfl⟩ := this
    exact pick_no_empty hb secs x hxs
  rw [List.nil_append]
  unfold ownSection
  rw [pick_singleton _ _ hb.1, pick_singleton _ _ hb.1, pick_singleton _ _ hb.1,
      pick_singleton _ _ hb.1, groupOf_buildBT, groupOf_buildBT, groupOf_buildBT,
      groupOf_buildBT]

theorem char_eq_of_toNat_eq {a b : Char} (h : a.toNat = b.toNat) : a = b := by
  have hv : a.val = b.val := by
    apply UInt32.ext
    simpa [UInt32.toNat, Char.toNat] using h
  exact Char.eq_of_val_eq hv

theorem listLE_total : ∀ a b : List Char, listLE a b = true ∨ listLE b a = true
  | [], _ => Or.inl rfl
  | _ :: _, [] => Or.inr rfl
  | a :: as, b :: bs => by
    rcases Nat.lt_trichotomy a.toNat b.toNat with h | h | h
    · left; simp [listLE, h]
    · have hn1 : ¬ a.toNat < b.toNat := by omega
      have hn2 : ¬ b.toNat < a.toNat := by omega
      rcases listLE_total as bs with ih | ih
      · left; simp [listLE, hn1, hn2, ih]
      · right; simp [listLE, hn1, hn2, ih]
    · right; simp [listLE, h]

theorem listLE_trans : ∀ a b c : List Char,
    listLE a b = true → listLE b c = true → listLE a c = true
  | [], _, _, _, _ => rfl
  | _ :: _, [], _, hab, _ => by simp [listLE] at hab
  | _ :: _, _ :: _, [], _, hbc => by simp [listLE] at hbc
  | a :: as, b :: bs, c :: cs, hab, hbc => by
    simp only [listLE] at hab hbc ⊢
    by_cases h1 : a.toNat < b.toNat
    · by_cases h2 : b.toNat < c.toNat
      · simp [show a.toNat < c.toNat by omega]
      · by_cases h3 : c.toNat < b.toNat
        · rw [if_neg h2, if_pos h3] at hbc
          exact absurd hbc (by simp)
        · simp [show a.toNat < c.toNat by omega]
    · by_cases h4 : b.toNat < a.toNat
      · rw [if_neg h1, if_pos h4] at hab
        exact absurd hab (by simp)
      · rw [if_neg h1, if_neg h4] at hab
        by_cases h2 : b.toNat < c.toNat
        · simp [show a.toNat < c.toNat by omega]
        · by_cases h3 : c.toNat < b.toNat
          · rw [if_neg h2, if_pos h3] at hbc
            exact absurd hbc (by simp)
          · rw [if_neg h2, if_neg h3] at hbc
            rw [if_neg (show ¬ a.toNat < c.toNat by omega),
                if_neg (show ¬ c.toNat < a.toNat by omega)]
            exact listLE_trans as bs cs hab hbc

theorem listLE_antisymm : ∀ a b : List Char,
    listLE a b = true → listLE b a = true → a = b
  | [], [], _, _ => rfl
  | [], _ :: _, _, hba => by simp [listLE] at hba
  | _ :: _, [], hab, _ => by simp [listLE] at hab
  | a :: as, b :: bs, hab, hba => by
    simp only [listLE] at hab hba
    rcases Nat.lt_trichotomy a.toNat b.toNat with h | h | h
    · rw [if_neg (by omega : ¬ b.toNat < a.toNat), if_pos h] at hba
      exact absurd hba (by simp)
    · have ha : a = b := char_eq_of_toNat_eq h
      subst ha
      simp only [if_neg (by omega : ¬ a.toNat < a.toNat)] at hab hba
      rw [listLE_antisymm as bs hab hba]
    · rw [if_neg (by omega : ¬ a.toNat < b.toNat), if_pos h] at hab
      exact absurd hab (by simp)

instance : IsTotal String keyLe :=
  ⟨fun a b => listLE_total a.toList b.toList⟩

instance : IsTrans String keyLe :=
  ⟨fun a b c => listLE_trans a.toList b.toList c.toList⟩

instance : IsAntisymm String keyLe :=
  ⟨fun a b h1 h2 => string_ext (listLE_antisymm a.toList b.toList h1 h2)⟩

theorem sortedKeys_sorted (inc : IncMap) : List.Sorted keyLe (sortedKeys inc) :=
  List.sorted_insertionSort _ _

theorem secKeys_sorted (rel : String → String) (cf : String → String → Bool → IncType)
    (fn : String) (inc : IncMap) (t : IncType) :
    List.Sorted keyLe (secKeys rel cf fn inc t) :=
  (sortedKeys_sorted inc).filter _

theorem BTI_cons {p : IncType × List String} {bt : List (IncType × List String)}
    (hb : BTI (p :: bt)) : BTI bt := by
  obtain ⟨hnd, hval⟩ := hb
  exact ⟨(List.nodup_cons.mp (by simpa using hnd)).2, fun q hq => hval q (by simp [hq])⟩

theorem not_mem_of_groupOf_nil (t : IncType) :
    ∀ (bt : List (IncType × List String)), BTI bt → groupOf t bt = [] →
      t ∉ bt.map Prod.fst
  | [], _, _ => by simp
  | (t0, ls) :: rest, hb, hg => by
    by_cases h0 : t0 = t
    · subst h0
      rw [show groupOf t0 ((t0, ls) :: rest) = ls from by simp [groupOf]] at hg
      exact absurd hg (hb.2 (t0, ls) (by simp)).1
    · rw [show groupOf t ((t0, ls) :: rest) = groupOf t rest from by simp [groupOf, h0]] at hg
      have := not_mem_of_groupOf_nil t rest (BTI_cons hb) hg
      simp only [List.map_cons, List.mem_cons]
      rintro (he | he)
      · exact h0 he.symm
      · exact this he

theorem ownSection_no_likely (rel : String → String) (cf : String → String → Bool → IncType)
    (fn : String) (inc : IncMap)
    (hl : secRender rel cf fn inc .likelyMyHeader = []) :
    ownSection rel cf fn inc = secRender rel cf fn inc .possibleMyHeader := by
  have hb := buildBT_BTI rel cf fn inc
  have hg : groupOf .likelyMyHeader (buildBT rel cf fn inc) = [] := by
    rw [groupOf_buildBT]; exact hl
  unfold ownSection
  rw [pick_pair_drop_left _ _ _ (not_mem_of_groupOf_nil _ _ hb hg),
      pick_singleton _ _ hb.1, groupOf_buildBT]

theorem ownSection_no_possible (rel : String → String) (cf : String → String → Bool → IncType)
    (fn : String) (inc : IncMap)
    (hp : secRender rel cf fn inc .possibleMyHeader = []) :
    ownSection rel cf fn inc = secRender rel cf fn inc .likelyMyHeader := by
  have hb := buildBT_BTI rel cf fn inc
  have hg : groupOf .possibleMyHeader (buildBT rel cf fn inc) = [] := by
    rw [groupOf_buildBT]; exact hp
  unfold ownSection
  rw [pick_pair_drop_right _ _ _ (not_mem_of_groupOf_nil _ _ hb hg),
      pick_singleton _ _ hb.1, groupOf_buildBT]

/-! ### Claim C2: the emitted block of a flushed batch -/

/-- C2 (amended): every flushed batch is emitted as the five sections in
the fixed order OwnHeader, CSystem, CppSystem, ExternalLibrary,
ProjectOther, where each of the four single-hint sections lists its
records in ascending lower-cased-key order rendered via their rendered
form, exactly one blank line follows each non-empty section (the final
one supplying the batch-boundary blank), and empty sections vanish.  The
own-header section consists of the likely-own and possible-own groups
(each internally in ascending key order) concatenated in first-insertion
order; it is a permutation of their ordered concatenation and is itself
fully ascending whenever at most one of the two hints occurs. -/

theorem C2_section_structure (rel : String → String) (cf : String → String → Bool → IncType)
    (fn : String) (inc : IncMap) :
    sort_includes_batch rel cf fn inc
      = blockOf [ownSection rel cf fn inc,
          secRender rel cf fn inc .cSysHeader,
          secRender rel cf fn inc .cppSysHeader,
          secRender rel cf fn inc .libsHeader,
          secRender rel cf fn inc .otherHeader]
    ∧ List.Perm (ownSection rel cf fn inc)
        (secRender rel cf fn inc .likelyMyHeader ++ secRender rel cf fn inc .possibleMyHeader)
    ∧ (∀ t, List.Sorted keyLe (secKeys rel cf fn inc t)
        ∧ secRender rel cf fn inc t = (secKeys rel cf fn inc t).map (renderKey inc))
    ∧ (secRender rel cf fn inc .likelyMyHeader = [] →
        ownSection rel cf fn inc = secRender rel cf fn inc .possibleMyHeader)
    ∧ (secRender rel cf fn inc .possibleMyHeader = [] →
        ownSection rel cf fn inc = secRender rel cf fn inc .likelyMyHeader) := by
  have hb := buildBT_BTI rel cf fn inc
  refine ⟨flush_structure rel cf fn inc, ?_, ?_, ownSection_no_likely rel cf fn inc,
    ownSection_no_possible rel cf fn inc⟩
  · have hperm := pick_pair_perm .likelyMyHeader .possibleMyHeader (by decide)
      (buildBT rel cf fn inc) hb.1
    rw [groupOf_buildBT, groupOf_buildBT] at hperm
    exact hperm
  · exact fun t => ⟨secKeys_sorted rel cf fn inc t, rfl⟩

/-- C2, counterexample: with a classifier reporting mixed likely/possible
own-header hints for three same-stem candidates, the flushed own-header
section emits records whose lower-cased keys are not in ascending order
(`foo/bar.hxx` precedes `foo/bar.hpp`), refuting the within-section
ascending-order claim. -/
theorem C2_counterexample :
    sort_includes id cfMixed (fun _ => true) "foo/bar.cc"
        ["#include \"foo/bar.h\"", "#include \"foo/bar.hpp\"", "#include \"foo/bar.hxx\""]
      = .ok (["#include \"foo/bar.h\"", "#include \"foo/bar.hxx\"",
              "#include \"foo/bar.hpp\"", ""], [])
    ∧ (["#include \"foo/bar.h\"", "#include \"foo/bar.hxx\"",
        "#include \"foo/bar.hpp\""].map (fun l => (HFile.parse l).map (fun h => pyLower h.name)))
      = [some "foo/bar.h", some "foo/bar.hxx", some "foo/bar.hpp"]
    ∧ ¬ keyLe "foo/bar.hxx" "foo/bar.hpp" := by
  refine ⟨rfl, by decide, by decide⟩

/-! ### Claim C5: the own-header same-stem check -/

theorem lookupInc_of_mem :
    ∀ (inc : IncMap) (k : String) (h : HFile), (inc.map Prod.fst).Nodup →
      (k, h) ∈ inc → lookupInc k inc = some h
  | [], _, _, _, hm => by simp at hm
  | (k0, h0) :: rest, k, h, hnd, hm => by
    by_cases hk : k0 = k
    · subst hk
      rcases List.mem_cons.mp hm with he | he
      · cases he
        simp [lookupInc]
      · have : k0 ∈ rest.map Prod.fst := List.mem_map_of_mem Prod.fst he
        exact absurd this (List.nodup_cons.mp (by simpa using hnd)).1
    · rcases List.mem_cons.mp hm with he | he
      · cases he; simp at hk
      · rw [show lookupInc k ((k0, h0) :: rest) = lookupInc k rest from by
              simp [lookupInc, hk]]
        exact lookupInc_of_mem rest k h (List.nodup_cons.mp (by simpa using hnd)).2 he

/-- The code's own-header test computes exactly the spec's same-stem
condition of the arguments it is given (the correction concerns which
argument the sorter passes, not the computation). -/
theorem is_own_header_iff_sameStem (rel : String → String) (src inc : String) :
    is_own_header rel src inc = true ↔ sameStem rel src inc := by
  unfold is_own_header sameStem stemOf stripTest dropTestSuffix
  constructor
  · intro hio
    exact of_decide_eq_true hio
  · intro hst
    exact decide_eq_true hst

/-- C5 (amended): the sorter applies the same-stem check to the
lower-cased target (the dict key `hfile.name.lower()`), not to the
candidate header as written.  For a record whose injected
classification is likely-or-possible own-header, the own-header
classification is kept, and the record emitted in the own-header
section, exactly when the spec's same-stem condition holds of the
lower-cased target; otherwise the record is reclassified ProjectOther
and emitted in the project section. -/
theorem C5_own_stem (rel : String → String) (cf : String → String → Bool → IncType)
    (fn : String) (inc : IncMap) (k : String) (h : HFile)
    (hnd : (inc.map Prod.fst).Nodup) (hmem : (k, h) ∈ inc)
    (hk : k = pyLower h.name)
    (hcl : cf fn h.name h.is_system = .likelyMyHeader
         ∨ cf fn h.name h.is_system = .possibleMyHeader) :
    (sameStem rel fn (pyLower h.name) →
        effType rel cf fn k h = cf fn h.name h.is_system
        ∧ h.render ∈ ownSection rel cf fn inc)
    ∧ (¬ sameStem rel fn (pyLower h.name) →
        effType rel cf fn k h = .otherHeader
        ∧ h.render ∈ secRender rel cf fn inc .otherHeader) := by
  have hb := buildBT_BTI rel cf fn inc
  have hlk : lookupInc k inc = some h := lookupInc_of_mem inc k h hnd hmem
  have hks : k ∈ sortedKeys inc := by
    unfold sortedKeys
    rw [List.mem_insertionSort]
    exact List.mem_map_of_mem Prod.fst hmem
  have hmemsec : ∀ t, effType rel cf fn k h = t → h.render ∈ secRender rel cf fn inc t := by
    intro t het
    unfold secRender secKeys
    have : k ∈ (sortedKeys inc).filter
        (fun k' => (lookupInc k' inc).map (effType rel cf fn k') = some t) := by
      rw [List.mem_filter]
      exact ⟨hks, by simp [hlk, het]⟩
    have hrk : renderKey inc k = h.render := by simp [renderKey, hlk]
    exact hrk ▸ List.mem_map_of_mem (renderKey inc) this
  have hiff : is_own_header rel fn k = true ↔ sameStem rel fn (pyLower h.name) := by
    rw [hk]
    exact is_own_header_iff_sameStem rel fn (pyLower h.name)
  constructor
  · intro hst
    have hio : is_own_header rel fn k = true := hiff.mpr hst
    have heff : effType rel cf fn k h = cf fn h.name h.is_system := by
      unfold effType
      rw [hio]
      simp
    refine ⟨heff, ?_⟩
    have hperm := pick_pair_perm .likelyMyHeader .possibleMyHeader (by decide)
      (buildBT rel cf fn inc) hb.1
    rw [groupOf_buildBT, groupOf_buildBT] at hperm
    rw [show ownSection rel cf fn inc = pick [.likelyMyHeader, .possibleMyHeader]
          (buildBT rel cf fn inc) from rfl]
    rw [hperm.mem_iff]
    rcases hcl with hcl | hcl
    · exact List.mem_append.mpr (Or.inl (hmemsec _ (heff.trans hcl)))
    · exact List.mem_append.mpr (Or.inr (hmemsec _ (heff.trans hcl)))
  · intro hst
    have hio : is_own_header rel fn k = false := by
      cases hio2 : is_own_header rel fn k
      · rfl
      · exact absurd (hiff.mp hio2) hst
    have heff : effType rel cf fn k h = .otherHeader := by
      unfold effType
      rcases hcl with hcl | hcl <;> rw [hcl] <;> simp [hio]
    exact ⟨heff, hmemsec _ heff⟩

theorem C5_own_stem_witness :
    ((sameStem id "foo/bar.cc" (pyLower "Foo/Bar.h") →
        effType id (fun _ _ _ => .likelyMyHeader) "foo/bar.cc" "foo/bar.h"
            ⟨"Foo/Bar.h", false, ""⟩
          = (fun _ _ _ => IncType.likelyMyHeader) "foo/bar.cc" "Foo/Bar.h" false
        ∧ HFile.render ⟨"Foo/Bar.h", false, ""⟩
            ∈ ownSection id (fun _ _ _ => .likelyMyHeader) "foo/bar.cc"
                [("foo/bar.h", ⟨"Foo/Bar.h", false, ""⟩)])
    ∧ (¬ sameStem id "foo/bar.cc" (pyLower "Foo/Bar.h") →
        effType id (fun _ _ _ => .likelyMyHeader) "foo/bar.cc" "foo/bar.h"
            ⟨"Foo/Bar.h", false, ""⟩
          = .otherHeader
        ∧ HFile.render ⟨"Foo/Bar.h", false, ""⟩
            ∈ secRender id (fun _ _ _ => .likelyMyHeader) "foo/bar.cc"
                [("foo/bar.h", ⟨"Foo/Bar.h", false, ""⟩)] .otherHeader)) :=
  C5_own_stem id (fun _ _ _ => .likelyMyHeader) "foo/bar.cc"
    [("foo/bar.h", ⟨"Foo/Bar.h", false, ""⟩)] "foo/bar.h" ⟨"Foo/Bar.h", false, ""⟩
    (by decide) (by decide) (by decide) (Or.inl rfl)

/-- C5, counterexample: for source `foo/bar.cc` and the include
`"Foo/Bar.h"` classified a possible own-header, the claim's same-stem
condition on the candidate header as written fails (stem `Foo/Bar` is
not `foo/bar`), so the claim demands reclassification to ProjectOther;
yet the sorter keeps the own-header classification and emits the record
in the own-header section, because the code evaluates the check on the
lower-cased dict key, for which the condition holds. -/
theorem C5_counterexample :
    ¬ sameStem id "foo/bar.cc" "Foo/Bar.h"
    ∧ sameStem id "foo/bar.cc" (pyLower "Foo/Bar.h")
    ∧ effType id (fun _ _ _ => .possibleMyHeader) "foo/bar.cc" "foo/bar.h"
        ⟨"Foo/Bar.h", false, ""⟩ = .possibleMyHeader
    ∧ HFile.render ⟨"Foo/Bar.h", false, ""⟩
        ∈ ownSection id (fun _ _ _ => .possibleMyHeader) "foo/bar.cc"
            [("foo/bar.h", ⟨"Foo/Bar.h", false, ""⟩)] := by
  refine ⟨by decide, by decide, by decide, by decide⟩

/-! ### Idempotence of `sort_includes` (claim C1) -/

theorem lookupInc_mem :
    ∀ {inc : IncMap} {k : String} {h : HFile}, lookupInc k inc = some h → (k, h) ∈ inc := by
  intro inc
  induction inc with
  | nil => intro k h hl; simp [lookupInc] at hl
  | cons p rest ih =>
    intro k h hl
    obtain ⟨k0, h0⟩ := p
    by_cases hk : k0 = k
    · subst hk
      rw [show lookupInc k0 ((k0, h0) :: rest) = some h0 from by simp [lookupInc]] at hl
      cases hl
      simp
    · rw [show lookupInc k ((k0, h0) :: rest) = lookupInc k rest from by
            simp [lookupInc, hk]] at hl
      exact List.mem_cons_of_mem _ (ih hl)

theorem lookupInc_eq_none :
    ∀ (inc : IncMap) (k : String), k ∉ inc.map Prod.fst → lookupInc k inc = none
  | [], _, _ => rfl
  | (k0, h0) :: rest, k, hm => by
    have hk : ¬ (k0 = k) := fun he => hm (by simp [he])
    rw [show lookupInc k ((k0, h0) :: rest) = lookupInc k rest from by simp [lookupInc, hk]]
    exact lookupInc_eq_none rest k (fun he => hm (by simp [he]))

theorem lookupInc_eq_of_perm {inc inc2 : IncMap} (hperm : List.Perm inc2 inc)
    (hnd : (inc.map Prod.fst).Nodup) (k : String) :
    lookupInc k inc2 = lookupInc k inc := by
  have hnd2 : (inc2.map Prod.fst).Nodup := ((hperm.map Prod.fst).nodup_iff).mpr hnd
  cases hl : lookupInc k inc with
  | some h =>
    exact lookupInc_of_mem inc2 k h hnd2 (hperm.mem_iff.mpr (lookupInc_mem hl))
  | none =>
    apply lookupInc_eq_none
    intro hm
    obtain ⟨p, hp, hpe⟩ := List.mem_map.mp hm
    have : p ∈ inc := hperm.mem_iff.mp hp
    obtain ⟨k2, h2⟩ := p
    cases hpe
    rw [lookupInc_of_mem inc _ _ hnd this] at hl
    cases hl

theorem mem_addByType_values :
    ∀ (bt : List (IncType × List String)) (t : IncType) (s : String) (p : IncType × List String),
      p ∈ addByType bt t s → ∀ y ∈ p.2, (∃ q ∈ bt, y ∈ q.2) ∨ y = s
  | [], t, s, p, hp, y, hy => by
    simp only [addByType, List.mem_singleton] at hp
    subst hp
    right
    simpa using hy
  | (t0, ls) :: rest, t, s, p, hp, y, hy => by
    by_cases h0 : t0 = t
    · simp only [addByType, if_pos h0, List.mem_cons] at hp
      rcases hp with rfl | hp
      · rcases List.mem_append.mp hy with hy | hy
        · exact Or.inl ⟨(t0, ls), by simp, hy⟩
        · right; simpa using hy
      · exact Or.inl ⟨p, by simp [hp], hy⟩
    · simp only [addByType, if_neg h0, List.mem_cons] at hp
      rcases hp with rfl | hp
      · exact Or.inl ⟨(t0, ls), by simp, hy⟩
      · rcases mem_addByType_values rest t s p hp y hy with ⟨q, hq, hyq⟩ | he
        · exact Or.inl ⟨q, by simp [hq], hyq⟩
        · exact Or.inr he

/-- Every value stored in the `by_type` dict is the rendering of a batch
entry. -/

theorem mem_buildBT_values_aux (rel : String → String) (cf : String → String → Bool → IncType)
    (fn : String) (inc : IncMap) :
    ∀ (ks : List String) (bt0 : List (IncType × List String)),
      (∀ p ∈ bt0, ∀ y ∈ p.2, ∃ k h, (k, h) ∈ inc ∧ y = HFile.render h) →
      (∀ p ∈ ks.foldl (btStep rel cf fn inc) bt0, ∀ y ∈ p.2,
        ∃ k h, (k, h) ∈ inc ∧ y = HFile.render h)
  | [], bt0, hv => hv
  | k :: ks, bt0, hv => by
    rw [List.foldl_cons]
    apply mem_buildBT_values_aux rel cf fn inc ks
    intro p hp y hy
    unfold btStep at hp
    cases hlk : lookupInc k inc with
    | none => rw [hlk] at hp; exact hv p hp y hy
    | some h =>
      rw [hlk] at hp
      rcases mem_addByType_values bt0 _ _ p hp y hy with ⟨q, hq, hyq⟩ | he
      · exact hv q hq y hyq
      · exact ⟨k, h, lookupInc_mem hlk, he⟩

theorem mem_buildBT_values (rel : String → String) (cf : String → String → Bool → IncType)
    (fn : String) (inc : IncMap) (p : IncType × List String)
    (hp : p ∈ buildBT rel cf fn inc) (y : String) (hy : y ∈ p.2) :
    ∃ k h, (k, h) ∈ inc ∧ y = HFile.render h :=
  mem_buildBT_values_aux rel cf fn inc (sortedKeys inc) [] (by simp) p hp y hy

theorem mem_blockOf :
    ∀ (ss : List (List String)) (x : String), x ∈ blockOf ss → x = "" ∨ ∃ s ∈ ss, x ∈ s
  | [], x, hx => by simp [blockOf] at hx
  | s :: rest, x, hx => by
    unfold blockOf at hx
    rcases List.mem_append.mp hx with hx | hx
    · by_cases hs : s = []
      · rw [if_pos hs] at hx; simp at hx
      · rw [if_neg hs] at hx
        rcases List.mem_append.mp hx with hx | hx
        · exact Or.inr ⟨s, by simp, hx⟩
        · left; simpa using hx
    · rcases mem_blockOf rest x hx with he | ⟨q, hq, hxq⟩
      · exact Or.inl he
      · exact Or.inr ⟨q, by simp [hq], hxq⟩

/-- Every line of an emitted batch is either a blank separator or the
rendering of one of the batch's records. -/

theorem mem_flush (rel : String → String) (cf : String → String → Bool → IncType)
    (fn : String) (inc : IncMap) (x : String)
    (hx : x ∈ sort_includes_batch rel cf fn inc) :
    x = "" ∨ ∃ k h, (k, h) ∈ inc ∧ x = HFile.render h := by
  rw [flush_structure] at hx
  rcases mem_blockOf _ x hx with he | ⟨s, hs, hxs⟩
  · exact Or.inl he
  · right
    have hsec : (∃ secs, s = pick secs (buildBT rel cf fn inc)) ∨ ∃ t, s = secRender rel cf fn inc t := by
      simp only [List.mem_cons, List.not_mem_nil, or_false] at hs
      rcases hs with rfl | rfl | rfl | rfl | rfl
      · exact Or.inl ⟨_, rfl⟩
      · exact Or.inr ⟨_, rfl⟩
      · exact Or.inr ⟨_, rfl⟩
      · exact Or.inr ⟨_, rfl⟩
      · exact Or.inr ⟨_, rfl⟩
    rcases hsec with ⟨secs, rfl⟩ | ⟨t, rfl⟩
    · obtain ⟨p, hp, hxp⟩ := mem_pick secs _ x hxs
      exact mem_buildBT_values rel cf fn inc p hp x hxp
    · unfold secRender at hxs
      obtain ⟨k, hk, hke⟩ := List.mem_map.mp hxs
      have hk2 := (List.mem_filter.mp hk).2
      simp only [decide_eq_true_eq] at hk2
      cases hlk : lookupInc k inc with
      | none => rw [hlk] at hk2; simp at hk2
      | some h =>
        refine ⟨k, h, lookupInc_mem hlk, ?_⟩
        rw [← hke]
        simp [renderKey, hlk]

/-- The head of an emitted batch is never a blank line. -/

theorem blockOf_head_ne :
    ∀ (ss : List (List String)), (∀ s ∈ ss, ∀ x ∈ s, x ≠ "") →
      ∀ x, (blockOf ss).head? = some x → x ≠ ""
  | [], _, x, hx => by simp [blockOf] at hx
  | s :: rest, hne, x, hx => by
    unfold blockOf at hx
    by_cases hs : s = []
    · rw [if_pos hs] at hx
      simp only [List.nil_append] at hx
      exact blockOf_head_ne rest (fun q hq => hne q (by simp [hq])) x hx
    · rw [if_neg hs] at hx
      obtain ⟨c, cs, rfl⟩ := List.exists_cons_of_ne_nil hs
      simp only [List.cons_append, List.head?_cons, Option.some.injEq] at hx
      subst hx
      exact hne (c :: cs) (by simp) c (by simp)

/-- Dropping the blank separators from an emitted batch leaves exactly
the concatenation of its sections. -/

theorem filterNE_blockOf :
    ∀ (ss : List (List String)), (∀ s ∈ ss, ∀ x ∈ s, x ≠ "") →
      (blockOf ss).filter (fun x => x ≠ "") = ss.foldr (· ++ ·) []
  | [], _ => rfl
  | s :: rest, hne => by
    unfold blockOf
    rw [List.filter_append]
    by_cases hs : s = []
    · rw [if_pos hs]
      subst hs
      simp only [List.filter_nil, List.nil_append, List.foldr_cons]
      exact filterNE_blockOf rest (fun q hq => hne q (by simp [hq]))
    · rw [if_neg hs, List.filter_append]
      have h1 : s.filter (fun x => x ≠ "") = s := by
        apply List.filter_eq_self.mpr
        intro a ha
        simpa using hne s (by simp) a ha
      have h2 : ([""] : List String).filter (fun x => x ≠ "") = [] := rfl
      rw [h1, h2, List.append_nil, List.foldr_cons,
          filterNE_blockOf rest (fun q hq => hne q (by simp [hq]))]

theorem foldr_append_cons_perm (x : String) (s : List String) :
    ∀ (L1 L2 : List (List String)),
      List.Perm ((L1 ++ (x :: s) :: L2).foldr (· ++ ·) [])
        (x :: (L1 ++ s :: L2).foldr (· ++ ·) [])
  | [], L2 => by simp
  | a :: L1, L2 => by
    simp only [List.cons_append, List.foldr_cons]
    refine ((foldr_append_cons_perm x s L1 L2).append_left a).trans ?_
    exact List.perm_middle

theorem lookupInc_isSome_of_mem :
    ∀ (inc : IncMap) (k : String), k ∈ inc.map Prod.fst → ∃ h, lookupInc k inc = some h
  | [], k, hm => by simp at hm
  | (k0, h0) :: rest, k, hm => by
    by_cases hk : k0 = k
    · exact ⟨h0, by simp [lookupInc, hk]⟩
    · have : k ∈ rest.map Prod.fst := by
        rcases List.mem_cons.mp hm with he | he
        · exact absurd he.symm hk
        · exact he
      obtain ⟨h, hl⟩ := lookupInc_isSome_of_mem rest k this
      exact ⟨h, by simp [lookupInc, hk, hl]⟩

/-- Partitioning a key list into its classification buckets and
concatenating the buckets is a permutation of the key list. -/

theorem filters_perm (f : String → Option IncType) (rk : String → String)
    (ts : List IncType) (hts : ts.Nodup) :
    ∀ (ks : List String), (∀ k ∈ ks, ∃ t ∈ ts, f k = some t) →
      List.Perm
        ((ts.map (fun t => (ks.filter (fun k => f k = some t)).map rk)).foldr (· ++ ·) [])
        (ks.map rk)
  | [], _ => by
    have : ts.map (fun t => (([] : List String).filter (fun k => f k = some t)).map rk)
        = ts.map (fun _ => []) := by
      apply List.map_congr_left
      intro t _
      simp
    rw [this]
    induction ts with
    | nil => simp
    | cons t ts ih => simpa using ih (List.Nodup.of_cons hts) (fun k hk => by simp at hk)
  | k :: ks, hmem => by
    obtain ⟨t0, ht0, hf⟩ := hmem k (by simp)
    obtain ⟨T1, T2, rfl⟩ := List.append_of_mem ht0
    have hnd := hts
    rw [List.nodup_append] at hnd
    have ht0T1 : t0 ∉ T1 := fun hm => hnd.2.2 hm (by simp)
    have ht0T2 : t0 ∉ T2 := by
      have := hnd.2.1
      rw [List.nodup_cons] at this
      exact this.1
    have hbucket1 : ∀ T : List IncType, t0 ∉ T →
        T.map (fun t => ((k :: ks).filter (fun k => f k = some t)).map rk)
          = T.map (fun t => (ks.filter (fun k => f k = some t)).map rk) := by
      intro T hT
      apply List.map_congr_left
      intro t ht
      have htne : ¬ (f k = some t) := by
        rw [hf]
        intro he
        cases he
        exact hT ht
      rw [List.filter_cons_of_neg (by simpa using htne)]
    have hbucket0 : ((k :: ks).filter (fun k => f k = some t0)).map rk
        = rk k :: (ks.filter (fun k => f k = some t0)).map rk := by
      rw [List.filter_cons_of_pos (by simpa using hf), List.map_cons]
    rw [List.map_append, List.map_cons, hbucket0, hbucket1 T1 ht0T1, hbucket1 T2 ht0T2]
    refine (foldr_append_cons_perm (rk k) _ _ _).trans ?_
    rw [List.map_cons]
    refine List.Perm.cons (rk k) ?_
    have := filters_perm f rk (T1 ++ t0 :: T2) hts ks
      (fun k2 hk2 => hmem k2 (by simp [hk2]))
    rw [List.map_append, List.map_cons] at this
    exact this

theorem filterMap_entryOf_filterNE :
    ∀ (l : List String), l.filterMap entryOf = (l.filter (fun x => x ≠ "")).filterMap entryOf
  | [] => rfl
  | x :: l => by
    by_cases hx : x = ""
    · subst hx
      rw [List.filter_cons_of_neg (by simp)]
      rw [show List.filterMap entryOf ("" :: l) = List.filterMap entryOf l from by
        simp [List.filterMap_cons, entryOf, HFile.parse, parseInclude]]
      exact filterMap_entryOf_filterNE l
    · rw [List.filter_cons_of_pos (by simpa using hx)]
      simp only [List.filterMap_cons]
      cases entryOf x <;> simp [filterMap_entryOf_filterNE l]

theorem entryOf_render {h : HFile} (hw : h.wf) :
    entryOf h.render = some (pyLower h.name, h) := by
  unfold entryOf
  rw [parse_render hw]
  rfl

theorem secRender_no_empty (rel : String → String) (cf : String → String → Bool → IncType)
    (fn : String) (inc : IncMap) (t : IncType) :
    ∀ x ∈ secRender rel cf fn inc t, x ≠ "" := by
  intro x hx
  unfold secRender at hx
  obtain ⟨k, hk, hke⟩ := List.mem_map.mp hx
  have hc := (List.mem_filter.mp hk).2
  simp only [decide_eq_true_eq] at hc
  cases hlk : lookupInc k inc with
  | none => rw [hlk] at hc; simp at hc
  | some h =>
    rw [← hke]
    rw [show renderKey inc k = h.render from by simp [renderKey, hlk]]
    exact render_ne_empty h

theorem filterMap_entry_of_renders (inc : IncMap) :
    ∀ (ks : List String),
      (∀ k ∈ ks, ∀ h : HFile, lookupInc k inc = some h → pyLower h.name = k ∧ h.wf) →
      (ks.map (renderKey inc)).filterMap entryOf
        = ks.filterMap (fun k => (lookupInc k inc).map (fun h => (k, h)))
  | [], _ => rfl
  | k :: ks, hq => by
    rw [List.map_cons, List.filterMap_cons, List.filterMap_cons]
    cases hlk : lookupInc k inc with
    | none =>
      rw [show renderKey inc k = "" from by simp [renderKey, hlk]]
      rw [show entryOf "" = none from rfl]
      simp [filterMap_entry_of_renders inc ks (fun k2 hk2 => hq k2 (by simp [hk2]))]
    | some h =>
      obtain ⟨hkey, hwf⟩ := hq k (by simp) h hlk
      rw [show renderKey inc k = h.render from by simp [renderKey, hlk]]
      rw [entryOf_render hwf, hkey]
      simp [filterMap_entry_of_renders inc ks (fun k2 hk2 => hq k2 (by simp [hk2]))]

theorem filterMap_lookup_self (inc : IncMap) :
    ∀ (inc2 : IncMap), (∀ p ∈ inc2, lookupInc p.1 inc = some p.2) →
      inc2.filterMap (fun p => (lookupInc p.1 inc).map (fun h => (p.1, h))) = inc2
  | [], _ => rfl
  | p :: rest, hl => by
    rw [List.filterMap_cons, hl p (by simp)]
    simp [filterMap_lookup_self inc rest (fun q hq => hl q (by simp [hq]))]

/-- Re-parsing the lines of a flushed batch recovers exactly the batch
entries, as a permutation. -/

theorem flush_content (rel : String → String) (cf : String → String → Bool → IncType)
    (fn : String) (inc : IncMap) (hinv : INV inc) :
    List.Perm ((sort_includes_batch rel cf fn inc).filterMap entryOf) inc := by
  have hb := buildBT_BTI rel cf fn inc
  have hownne : ∀ x ∈ ownSection rel cf fn inc, x ≠ "" := by
    intro x hx
    exact pick_no_empty hb _ x hx
  have hsections : (sort_includes_batch rel cf fn inc).filter (fun x => x ≠ "")
      = [ownSection rel cf fn inc,
         secRender rel cf fn inc .cSysHeader,
         secRender rel cf fn inc .cppSysHeader,
         secRender rel cf fn inc .libsHeader,
         secRender rel cf fn inc .otherHeader].foldr (· ++ ·) [] := by
    rw [flush_structure]
    apply filterNE_blockOf
    intro s hs
    simp only [List.mem_cons, List.not_mem_nil, or_false] at hs
    rcases hs with rfl | rfl | rfl | rfl | rfl
    · exact hownne
    · exact secRender_no_empty rel cf fn inc _
    · exact secRender_no_empty rel cf fn inc _
    · exact secRender_no_empty rel cf fn inc _
    · exact secRender_no_empty rel cf fn inc _
  have hkeys : ∀ k ∈ sortedKeys inc, ∃ h, lookupInc k inc = some h := by
    intro k hk
    apply lookupInc_isSome_of_mem
    unfold sortedKeys at hk
    rw [List.mem_insertionSort] at hk
    exact hk
  have hsix := filters_perm (fun k => (lookupInc k inc).map (effType rel cf fn k))
    (renderKey inc)
    [.likelyMyHeader, .possibleMyHeader, .cSysHeader, .cppSysHeader, .libsHeader, .otherHeader]
    (by decide) (sortedKeys inc)
    (by
      intro k hk
      obtain ⟨h, hlk⟩ := hkeys k hk
      refine ⟨effType rel cf fn k h, ?_, by simp [hlk]⟩
      cases effType rel cf fn k h <;> simp)
  have hperm1 : List.Perm
      ([ownSection rel cf fn inc,
        secRender rel cf fn inc .cSysHeader,
        secRender rel cf fn inc .cppSysHeader,
        secRender rel cf fn inc .libsHeader,
        secRender rel cf fn inc .otherHeader].foldr (· ++ ·) [])
      ((sortedKeys inc).map (renderKey inc)) := by
    have hown := pick_pair_perm .likelyMyHeader .possibleMyHeader (by decide)
      (buildBT rel cf fn inc) hb.1
    rw [groupOf_buildBT, groupOf_buildBT] at hown
    refine List.Perm.trans ?_ hsix
    simp only [List.foldr_cons, List.foldr_nil, List.map_cons, List.map_nil]
    rw [show ownSection rel cf fn inc = pick [.likelyMyHeader, .possibleMyHeader]
          (buildBT rel cf fn inc) from rfl]
    refine List.Perm.trans (hown.append_right _) ?_
    unfold secRender secKeys
    simp only [List.append_assoc, List.append_nil]
    exact List.Perm.refl _
  have hstr : List.Perm ((sort_includes_batch rel cf fn inc).filter (fun x => x ≠ ""))
      ((sortedKeys inc).map (renderKey inc)) := hsections ▸ hperm1
  have hstep2 : (sort_includes_batch rel cf fn inc).filterMap entryOf
      = ((sort_includes_batch rel cf fn inc).filter (fun x => x ≠ "")).filterMap entryOf :=
    filterMap_entryOf_filterNE _
  have hstep3 := hstr.filterMap entryOf
  have hstep4 : ((sortedKeys inc).map (renderKey inc)).filterMap entryOf
      = (sortedKeys inc).filterMap (fun k => (lookupInc k inc).map (fun h => (k, h))) := by
    apply filterMap_entry_of_renders
    intro k hk h hlk
    have hmem := lookupInc_mem hlk
    have := hinv.2 (k, h) hmem
    exact ⟨this.1.symm, this.2⟩
  have hperm5 : List.Perm (sortedKeys inc) (inc.map Prod.fst) := List.perm_insertionSort _ _
  have hstep5 := hperm5.filterMap (fun k => (lookupInc k inc).map (fun h => (k, h)))
  have hstep6 : (inc.map Prod.fst).filterMap (fun k => (lookupInc k inc).map (fun h => (k, h)))
      = inc := by
    rw [List.filterMap_map]
    have : ∀ p ∈ inc, lookupInc p.1 inc = some p.2 := by
      intro p hp
      exact lookupInc_of_mem inc p.1 p.2 hinv.1 hp
    exact filterMap_lookup_self inc inc this
  rw [hstep2]
  refine hstep3.trans ?_
  rw [hstep4]
  refine hstep5.trans ?_
  rw [hstep6]

theorem buildBT_ext (rel : String → String) (cf : String → String → Bool → IncType)
    (fn : String) {inc inc2 : IncMap} (hlk : ∀ k, lookupInc k inc2 = lookupInc k inc) :
    ∀ (ks : List String) (bt0 : List (IncType × List String)),
      ks.foldl (btStep rel cf fn inc2) bt0 = ks.foldl (btStep rel cf fn inc) bt0
  | [], _ => rfl
  | k :: ks, bt0 => by
    rw [List.foldl_cons, List.foldl_cons,
        show btStep rel cf fn inc2 bt0 k = btStep rel cf fn inc bt0 k from by
          unfold btStep; rw [hlk k]]
    exact buildBT_ext rel cf fn hlk ks _

theorem sortedKeys_ext {inc inc2 : IncMap} (hperm : List.Perm inc2 inc) :
    sortedKeys inc2 = sortedKeys inc := by
  have hp : List.Perm (sortedKeys inc2) (sortedKeys inc) :=
    ((List.perm_insertionSort _ _).trans (hperm.map _)).trans
      (List.perm_insertionSort _ _).symm
  exact List.eq_of_perm_of_sorted hp (sortedKeys_sorted _) (sortedKeys_sorted _)

/-- Flushing a batch depends only on the key-record map: any
reordering (with the same distinct keys) flushes identically. -/

theorem flush_ext (rel : String → String) (cf : String → String → Bool → IncType)
    (fn : String) {inc inc2 : IncMap} (hperm : List.Perm inc2 inc)
    (hnd : (inc.map Prod.fst).Nodup) :
    sort_includes_batch rel cf fn inc2 = sort_includes_batch rel cf fn inc := by
  have hlk := lookupInc_eq_of_perm hperm hnd
  unfold sort_includes_batch buildBT
  rw [sortedKeys_ext hperm, buildBT_ext rel cf fn hlk]

/-- Re-scanning the emitted lines of a batch collects exactly the
re-parsed entries, emits nothing, and ends still in batch. -/

theorem scanBlock (rel : String → String) (cf : String → String → Bool → IncType)
    (pf : String → Bool) (fn : String) :
    ∀ (bl : List String) (lnum : Nat) (inc0 : IncMap),
      (∀ l ∈ bl, l = "" ∨ ∃ h : HFile, h.wf ∧ l = h.render) →
      (((inc0 ++ bl.filterMap entryOf).map Prod.fst).Nodup) →
      ∀ (rest : List String), ∃ (ws : List Warning) (lnum2 : Nat),
        siGo rel cf pf fn (bl ++ rest) lnum true inc0
          = (siGo rel cf pf fn rest lnum2 true (inc0 ++ bl.filterMap entryOf)).map
              (fun r => (r.1, ws ++ r.2.1, r.2.2))
  | [], lnum, inc0, _, _, rest => ⟨[], lnum, by
      simp only [List.nil_append, List.filterMap_nil, List.append_nil]
      cases hs : siGo rel cf pf fn rest lnum true inc0 <;> simp [Except.map]⟩
  | l :: bl, lnum, inc0, hb, hnd, rest => by
    rcases hb l (by simp) with rfl | ⟨h, hw, rfl⟩
    · have hfm : (("" : String) :: bl).filterMap entryOf = bl.filterMap entryOf := by
        rw [List.filterMap_cons]
        rfl
      rw [hfm] at hnd
      obtain ⟨ws, lnum2, ih⟩ := scanBlock rel cf pf fn bl (lnum+1) inc0
        (fun q hq => hb q (by simp [hq])) hnd rest
      refine ⟨ws, lnum2, ?_⟩
      rw [List.cons_append,
          show siGo rel cf pf fn ("" :: (bl ++ rest)) lnum true inc0
            = siGo rel cf pf fn (bl ++ rest) (lnum+1) true inc0 from rfl,
          ih, hfm]
    · have hincl := isIncludeLine_render hw
      have hparse := parse_render hw
      have hfm : (h.render :: bl).filterMap entryOf
          = (pyLower h.name, h) :: bl.filterMap entryOf := by
        rw [List.filterMap_cons, entryOf_render hw]
      rw [hfm] at hnd
      have hkey_not : pyLower h.name ∉ inc0.map Prod.fst := by
        rw [List.map_append, List.nodup_append] at hnd
        intro hm
        exact hnd.2.2 hm (by simp)
      have hlk0 : lookupInc (pyLower h.name) inc0 = none := lookupInc_eq_none _ _ hkey_not
      have hnd2 : (((inc0 ++ [(pyLower h.name, h)]) ++ bl.filterMap entryOf).map
          Prod.fst).Nodup := by
        simpa [List.append_assoc] using hnd
      obtain ⟨ws, lnum2, ih⟩ := scanBlock rel cf pf fn bl (lnum+1)
        (inc0 ++ [(pyLower h.name, h)]) (fun q hq => hb q (by simp [hq])) hnd2 rest
      refine ⟨styleWarnings pf fn (lnum+1) h ++ ws, lnum2, ?_⟩
      rw [List.cons_append]
      have hstep : siGo rel cf pf fn (h.render :: (bl ++ rest)) lnum true inc0
          = match siGo rel cf pf fn (bl ++ rest) (lnum+1) true
              (inc0 ++ [(pyLower h.name, h)]) with
            | .ok (ls, ws', n) => .ok (ls, styleWarnings pf fn (lnum+1) h ++ ws', 0 + n)
            | .error e => .error e := by
        rw [siGo.eq_def]
        simp only [hincl, if_true]
        rw [show HFile.parse h.render = some h from hparse]
        simp only [hlk0]
      rw [hstep, ih, hfm]
      rw [show inc0 ++ (pyLower h.name, h) :: List.filterMap entryOf bl
          = (inc0 ++ [(pyLower h.name, h)]) ++ List.filterMap entryOf bl from by
        simp [List.append_assoc]]
      cases hs : siGo rel cf pf fn rest lnum2 true
          ((inc0 ++ [(pyLower h.name, h)]) ++ List.filterMap entryOf bl) with
      | ok r =>
        obtain ⟨ls, ws', n⟩ := r
        simp [Except.map, List.append_assoc]
      | error e => simp [Except.map]

theorem siGo_nil (rel : String → String) (cf : String → String → Bool → IncType)
    (pf : String → Bool) (fn : String) (lnum : Nat) (ib : Bool) (inc : IncMap) :
    siGo rel cf pf fn [] lnum ib inc
      = if ib then .ok (sort_includes_batch rel cf fn inc, [], 0) else .ok ([], [], 0) := by
  rw [siGo.eq_def]

theorem siGo_cons_include (rel : String → String) (cf : String → String → Bool → IncType)
    (pf : String → Bool) (fn : String) (line : String) (rest : List String)
    (lnum : Nat) (ib : Bool) (inc : IncMap) (h : HFile)
    (hi : isIncludeLine line = true) (hp : HFile.parse line = some h)
    (hl : lookupInc (pyLower h.name) inc = none) :
    siGo rel cf pf fn (line :: rest) lnum ib inc
      = match siGo rel cf pf fn rest (lnum+1) true (inc ++ [(pyLower h.name, h)]) with
        | .ok (ls, ws, n) =>
          .ok (ls, styleWarnings pf fn (lnum+1) h ++ ws, (if ib then 0 else 1) + n)
        | .error e => .error e := by
  rw [siGo.eq_def]
  simp only [hi, if_true, hp, hl]

theorem siGo_cons_dup (rel : String → String) (cf : String → String → Bool → IncType)
    (pf : String → Bool) (fn : String) (line : String) (rest : List String)
    (lnum : Nat) (ib : Bool) (inc : IncMap) (h h0 : HFile)
    (hi : isIncludeLine line = true) (hp : HFile.parse line = some h)
    (hl : lookupInc (pyLower h.name) inc = some h0) (he : h.render = h0.render) :
    siGo rel cf pf fn (line :: rest) lnum ib inc
      = match siGo rel cf pf fn rest (lnum+1) true inc with
        | .ok (ls, ws, n) =>
          .ok (ls, .dupConsistent h.name fn (lnum+1) h.render :: ws, (if ib then 0 else 1) + n)
        | .error e => .error e := by
  rw [siGo.eq_def]
  simp only [hi, if_true, hp, hl, he, if_pos]

theorem siGo_cons_flushb (rel : String → String) (cf : String → String → Bool → IncType)
    (pf : String → Bool) (fn : String) (line : String) (rest : List String)
    (lnum : Nat) (inc : IncMap)
    (hi : isIncludeLine line = false) (hs : pyStrip line ≠ "") :
    siGo rel cf pf fn (line :: rest) lnum true inc
      = match siGo rel cf pf fn rest (lnum+1) false [] with
        | .ok (ls, ws, n) => .ok (sort_includes_batch rel cf fn inc ++ line :: ls, ws, n)
        | .error e => .error e := by
  rw [siGo.eq_def]
  simp only [hi, Bool.false_eq_true, if_false, if_true, if_pos hs]

theorem siGo_cons_blank (rel : String → String) (cf : String → String → Bool → IncType)
    (pf : String → Bool) (fn : String) (line : String) (rest : List String)
    (lnum : Nat) (inc : IncMap)
    (hi : isIncludeLine line = false) (hs : pyStrip line = "") :
    siGo rel cf pf fn (line :: rest) lnum true inc
      = siGo rel cf pf fn rest (lnum+1) true inc := by
  rw [siGo.eq_def]
  simp only [hi, Bool.false_eq_true, if_false, if_true, hs]
  simp

theorem siGo_cons_pass (rel : String → String) (cf : String → String → Bool → IncType)
    (pf : String → Bool) (fn : String) (line : String) (rest : List String)
    (lnum : Nat) (inc : IncMap)
    (hi : isIncludeLine line = false) :
    siGo rel cf pf fn (line :: rest) lnum false inc
      = match siGo rel cf pf fn rest (lnum+1) false inc with
        | .ok (ls, ws, n) => .ok (line :: ls, ws, n)
        | .error e => .error e := by
  rw [siGo.eq_def]
  simp only [hi, Bool.false_eq_true, if_false]

theorem flush_ne_nil (rel : String → String) (cf : String → String → Bool → IncType)
    (fn : String) (inc : IncMap) (hinv : INV inc) (hne : inc ≠ []) :
    sort_includes_batch rel cf fn inc ≠ [] := by
  intro hF
  have hp := flush_content rel cf fn inc hinv
  rw [hF] at hp
  simp only [List.filterMap_nil] at hp
  exact hne (List.perm_nil.mp hp.symm)

theorem flush_head_not_blank (rel : String → String) (cf : String → String → Bool → IncType)
    (fn : String) (inc : IncMap) (x : String)
    (hx : (sort_includes_batch rel cf fn inc).head? = some x) : x ≠ "" := by
  rw [flush_structure] at hx
  refine blockOf_head_ne _ ?_ x hx
  intro s hs
  simp only [List.mem_cons, List.not_mem_nil, or_false] at hs
  rcases hs with rfl | rfl | rfl | rfl | rfl
  · exact fun y hy => pick_no_empty (buildBT_BTI rel cf fn inc) _ y hy
  · exact secRender_no_empty rel cf fn inc _
  · exact secRender_no_empty rel cf fn inc _
  · exact secRender_no_empty rel cf fn inc _
  · exact secRender_no_empty rel cf fn inc _

/-- Re-scanning a flushed batch (from outside a batch) rebuilds an
equivalent pending map and emits no lines of its own. -/

theorem rescan_flush (rel : String → String) (cf : String → String → Bool → IncType)
    (pf : String → Bool) (fn : String) (inc : IncMap) (hinv : INV inc) (hne : inc ≠ [])
    (lnum : Nat) (rest : List String) :
    ∃ (ws : List Warning) (lnum2 : Nat) (inc2 : IncMap),
      List.Perm inc2 inc ∧ INV inc2 ∧ inc2 ≠ [] ∧
      siGo rel cf pf fn (sort_includes_batch rel cf fn inc ++ rest) lnum false []
        = (siGo rel cf pf fn rest lnum2 true inc2).map
            (fun r => (r.1, ws ++ r.2.1, 1 + r.2.2)) := by
  obtain ⟨l, F', hF⟩ := List.exists_cons_of_ne_nil (flush_ne_nil rel cf fn inc hinv hne)
  have hlF : l ∈ sort_includes_batch rel cf fn inc := by rw [hF]; simp
  have hlne : l ≠ "" := flush_head_not_blank rel cf fn inc l (by rw [hF]; rfl)
  rcases mem_flush rel cf fn inc l hlF with he | ⟨k, h, hkh, rfl⟩
  · exact absurd he hlne
  have hw : h.wf := (hinv.2 (k, h) hkh).2
  have hi := isIncludeLine_render hw
  have hp := parse_render hw
  have hpF := flush_content rel cf fn inc hinv
  have hsplit : ((pyLower h.name, h) :: List.filterMap entryOf F')
      = (sort_includes_batch rel cf fn inc).filterMap entryOf := by
    rw [hF, List.filterMap_cons, entryOf_render hw]
  have hperm : List.Perm ((pyLower h.name, h) :: List.filterMap entryOf F') inc := by
    rw [hsplit]; exact hpF
  have hnd2 : (((pyLower h.name, h) :: List.filterMap entryOf F').map Prod.fst).Nodup :=
    ((hperm.map Prod.fst).nodup_iff).mpr hinv.1
  have hbl : ∀ l' ∈ F', l' = "" ∨ ∃ h' : HFile, h'.wf ∧ l' = h'.render := by
    intro l' hl'
    rcases mem_flush rel cf fn inc l' (by rw [hF]; simp [hl']) with he | ⟨k', h', hk', rfl⟩
    · exact Or.inl he
    · exact Or.inr ⟨h', (hinv.2 (k', h') hk').2, rfl⟩
  obtain ⟨ws', lnum2, hsb⟩ := scanBlock rel cf pf fn F' (lnum+1) [(pyLower h.name, h)]
    hbl (by simpa using hnd2) rest
  refine ⟨styleWarnings pf fn (lnum+1) h ++ ws', lnum2,
    (pyLower h.name, h) :: List.filterMap entryOf F', hperm,
    ⟨hnd2, fun p hp2 => hinv.2 p (hperm.subset hp2)⟩, by simp, ?_⟩
  rw [hF, List.cons_append,
      siGo_cons_include rel cf pf fn _ _ lnum false [] h hi hp rfl,
      show ([] : IncMap) ++ [(pyLower h.name, h)] = [(pyLower h.name, h)] from rfl, hsb,
      show ([(pyLower h.name, h)] ++ List.filterMap entryOf F')
        = (pyLower h.name, h) :: List.filterMap entryOf F' from rfl]
  cases hs : siGo rel cf pf fn rest lnum2 true
      ((pyLower h.name, h) :: List.filterMap entryOf F') with
  | ok r =>
    obtain ⟨ls, wsr, n⟩ := r
    simp [Except.map]
  | error e => simp [Except.map]

theorem siGo_cons_nofile (rel : String → String) (cf : String → String → Bool → IncType)
    (pf : String → Bool) (fn : String) (line : String) (rest : List String)
    (lnum : Nat) (ib : Bool) (inc : IncMap)
    (hi : isIncludeLine line = true) (hp : HFile.parse line = none) :
    siGo rel cf pf fn (line :: rest) lnum ib inc = .error (.parseFailure line) := by
  rw [siGo.eq_def]
  simp only [hi, if_true, hp]

theorem siGo_cons_incons (rel : String → String) (cf : String → String → Bool → IncType)
    (pf : String → Bool) (fn : String) (line : String) (rest : List String)
    (lnum : Nat) (ib : Bool) (inc : IncMap) (h h0 : HFile)
    (hi : isIncludeLine line = true) (hp : HFile.parse line = some h)
    (hl : lookupInc (pyLower h.name) inc = some h0) (he : h.render ≠ h0.render) :
    siGo rel cf pf fn (line :: rest) lnum ib inc
      = .error (.inconsistentDup h.name fn (lnum+1) h.render) := by
  rw [siGo.eq_def]
  simp only [hi, if_true, hp, hl]
  rw [if_neg he]

theorem INV_snoc {inc : IncMap} {h : HFile} (hinv : INV inc)
    (hl : lookupInc (pyLower h.name) inc = none) (hw : h.wf) :
    INV (inc ++ [(pyLower h.name, h)]) := by
  constructor
  · rw [List.map_append, List.nodup_append]
    refine ⟨hinv.1, by simp, ?_⟩
    intro a ha hb
    simp only [List.map_cons, List.map_nil, List.mem_singleton] at hb
    subst hb
    obtain ⟨h2, hl2⟩ := lookupInc_isSome_of_mem inc _ ha
    rw [hl] at hl2
    exact absurd hl2 (by simp)
  · intro p hp
    rcases List.mem_append.mp hp with hp | hp
    · exact hinv.2 p hp
    · simp only [List.mem_singleton] at hp
      subst hp
      exact ⟨rfl, hw⟩

/-- Re-scanning a canonical sequence from the initial state reproduces
it verbatim. -/
theorem canon_rescan (rel : String → String) (cf : String → String → Bool → IncType)
    (pf : String → Bool) (fn : String) {O : List String} (hc : Canon rel cf fn O) :
    ∀ lnum, ∃ ws n, siGo rel cf pf fn O lnum false [] = .ok (O, ws, n) := by
  induction hc with
  | nil =>
    intro lnum
    exact ⟨[], 0, by rw [siGo_nil]; simp⟩
  | pass l O hl hcO ih =>
    intro lnum
    obtain ⟨ws, n, hO⟩ := ih (lnum+1)
    exact ⟨ws, n, by rw [siGo_cons_pass rel cf pf fn l O lnum [] hl, hO]⟩
  | flushTerm inc hinv hne =>
    intro lnum
    obtain ⟨ws, lnum2, inc2, hperm, hinv2, hne2, heq⟩ :=
      rescan_flush rel cf pf fn inc hinv hne lnum []
    rw [List.append_nil] at heq
    refine ⟨ws, 1, ?_⟩
    rw [heq, siGo_nil]
    simp [Except.map, flush_ext rel cf fn hperm hinv.1]
  | flushCont inc l O hinv hne hl hs hcO ih =>
    intro lnum
    obtain ⟨ws, lnum2, inc2, hperm, hinv2, hne2, heq⟩ :=
      rescan_flush rel cf pf fn inc hinv hne lnum (l :: O)
    obtain ⟨wsO, nO, hO⟩ := ih (lnum2+1)
    refine ⟨ws ++ wsO, 1 + nO, ?_⟩
    rw [heq, siGo_cons_flushb rel cf pf fn l O lnum2 inc2 hl hs, hO]
    simp [Except.map, flush_ext rel cf fn hperm hinv.1]

/-- Classification of the output of any non-failing run of the line
loop, by the state the run starts in. -/

theorem run_canon (rel : String → String) (cf : String → String → Bool → IncType)
    (pf : String → Bool) (fn : String) :
    ∀ (L : List String) (lnum : Nat) (ib : Bool) (inc : IncMap) (O : List String)
      (W : List Warning) (n : Nat), INV inc →
      siGo rel cf pf fn L lnum ib inc = .ok (O, W, n) →
      (ib = true → inc ≠ [] → BatchOut rel cf fn inc O)
      ∧ (ib = false → inc = [] → Canon rel cf fn O)
  | [], lnum, ib, inc, O, W, n, hinv, hrun => by
    rw [siGo_nil] at hrun
    cases ib with
    | true =>
      simp only [if_true, Except.ok.injEq, Prod.mk.injEq] at hrun
      obtain ⟨h1, -, -⟩ := hrun
      subst h1
      refine ⟨fun _ _ => ⟨[], ?_, Or.inl ?_⟩, fun hf => nomatch hf⟩
      · rw [List.append_nil]; exact hinv
      · rw [List.append_nil]
    | false =>
      simp only [Bool.false_eq_true, if_false, Except.ok.injEq, Prod.mk.injEq] at hrun
      obtain ⟨h1, -, -⟩ := hrun
      subst h1
      constructor
      · intro ht; exact nomatch ht
      · intro _ _; exact Canon.nil
  | line :: rest, lnum, ib, inc, O, W, n, hinv, hrun => by
    by_cases hi : isIncludeLine line = true
    · cases hp : HFile.parse line with
      | none =>
        rw [siGo_cons_nofile rel cf pf fn line rest lnum ib inc hi hp] at hrun
        exact absurd hrun (by simp)
      | some h =>
        cases hl : lookupInc (pyLower h.name) inc with
        | none =>
          rw [siGo_cons_include rel cf pf fn line rest lnum ib inc h hi hp hl] at hrun
          cases hrec : siGo rel cf pf fn rest (lnum+1) true
              (inc ++ [(pyLower h.name, h)]) with
          | error e => rw [hrec] at hrun; exact absurd hrun (by simp)
          | ok r =>
            obtain ⟨ls, ws', n'⟩ := r
            rw [hrec] at hrun
            simp only [Except.ok.injEq, Prod.mk.injEq] at hrun
            obtain ⟨h1, -, -⟩ := hrun
            subst h1
            have hinv2 := INV_snoc hinv hl (parse_wf hp)
            have hBO := (run_canon rel cf pf fn rest (lnum+1) true
              (inc ++ [(pyLower h.name, h)]) ls ws' n' hinv2 hrec).1 rfl (by simp)
            obtain ⟨extra, hinvE, hdisj⟩ := hBO
            constructor
            · intro _ _
              refine ⟨(pyLower h.name, h) :: extra, ?_, ?_⟩
              · rw [show inc ++ (pyLower h.name, h) :: extra
                    = (inc ++ [(pyLower h.name, h)]) ++ extra from by simp]
                exact hinvE
              · rw [show inc ++ (pyLower h.name, h) :: extra
                    = (inc ++ [(pyLower h.name, h)]) ++ extra from by simp]
                exact hdisj
            · intro _ hinc
              subst hinc
              rw [List.nil_append] at hinvE hdisj
              rcases hdisj with he | ⟨l2, O2, hl2, hs2, hc2, he⟩
              · rw [he]
                exact Canon.flushTerm _ hinvE (by simp)
              · rw [he]
                exact Canon.flushCont _ l2 O2 hinvE (by simp) hl2 hs2 hc2
        | some h0 =>
          by_cases he : h.render = h0.render
          · rw [siGo_cons_dup rel cf pf fn line rest lnum ib inc h h0 hi hp hl he] at hrun
            cases hrec : siGo rel cf pf fn rest (lnum+1) true inc with
            | error e => rw [hrec] at hrun; exact absurd hrun (by simp)
            | ok r =>
              obtain ⟨ls, ws', n'⟩ := r
              rw [hrec] at hrun
              simp only [Except.ok.injEq, Prod.mk.injEq] at hrun
              obtain ⟨h1, -, -⟩ := hrun
              subst h1
              constructor
              · intro _ hne
                exact (run_canon rel cf pf fn rest (lnum+1) true inc ls ws' n'
                  hinv hrec).1 rfl hne
              · intro _ hinc
                subst hinc
                exact absurd hl (by simp [lookupInc])
          · rw [siGo_cons_incons rel cf pf fn line rest lnum ib inc h h0 hi hp hl he] at hrun
            exact absurd hrun (by simp)
    · have hi2 : isIncludeLine line = false := by
        cases hli : isIncludeLine line
        · rfl
        · exact absurd hli hi
      cases ib with
      | true =>
        by_cases hs : pyStrip line = ""
        · rw [siGo_cons_blank rel cf pf fn line rest lnum inc hi2 hs] at hrun
          constructor
          · intro _ hne
            exact (run_canon rel cf pf fn rest (lnum+1) true inc O W n hinv hrun).1 rfl hne
          · intro hf; exact nomatch hf
        · rw [siGo_cons_flushb rel cf pf fn line rest lnum inc hi2 hs] at hrun
          cases hrec : siGo rel cf pf fn rest (lnum+1) false [] with
          | error e => rw [hrec] at hrun; exact absurd hrun (by simp)
          | ok r =>
            obtain ⟨ls, ws', n'⟩ := r
            rw [hrec] at hrun
            simp only [Except.ok.injEq, Prod.mk.injEq] at hrun
            obtain ⟨h1, -, -⟩ := hrun
            subst h1
            have hCan := (run_canon rel cf pf fn rest (lnum+1) false [] ls ws' n'
              ⟨List.nodup_nil, by simp⟩ hrec).2 rfl rfl
            constructor
            · intro _ _
              refine ⟨[], by rw [List.append_nil]; exact hinv,
                Or.inr ⟨line, ls, hi2, hs, hCan, ?_⟩⟩
              rw [List.append_nil]
            · intro hf; exact nomatch hf
      | false =>
        rw [siGo_cons_pass rel cf pf fn line rest lnum inc hi2] at hrun
        cases hrec : siGo rel cf pf fn rest (lnum+1) false inc with
        | error e => rw [hrec] at hrun; exact absurd hrun (by simp)
        | ok r =>
          obtain ⟨ls, ws', n'⟩ := r
          rw [hrec] at hrun
          simp only [Except.ok.injEq, Prod.mk.injEq] at hrun
          obtain ⟨h1, -, -⟩ := hrun
          subst h1
          constructor
          · intro ht; exact nomatch ht
          · intro _ hinc
            subst hinc
            have hCan := (run_canon rel cf pf fn rest (lnum+1) false [] ls ws' n'
              ⟨List.nodup_nil, by simp⟩ hrec).2 rfl rfl
            exact Canon.pass line ls hi2 hCan

/-- C1: `sort_includes` is idempotent.  For every injected root
override, classifier and project predicate, every source identifier and
every line sequence on which `sort_includes` completes without a fatal
error, re-running `sort_includes` on its own output succeeds and
returns that output unchanged; in particular a canonical input (which
is such an output) is returned byte-for-byte. -/

theorem C1_idempotent (rel : String → String) (cf : String → String → Bool → IncType)
    (pf : String → Bool) (fn : String) (L O : List String) (W : List Warning)
    (hrun : sort_includes rel cf pf fn L = .ok (O, W)) :
    ∃ W2, sort_includes rel cf pf fn O = .ok (O, W2) := by
  unfold sort_includes at hrun ⊢
  cases hgo : siGo rel cf pf fn L 0 false [] with
  | error e => rw [hgo] at hrun; exact absurd hrun (by simp)
  | ok r =>
    obtain ⟨ls, ws, n⟩ := r
    rw [hgo] at hrun
    simp only [Except.ok.injEq, Prod.mk.injEq] at hrun
    obtain ⟨h1, -⟩ := hrun
    subst h1
    have hcan := (run_canon rel cf pf fn L 0 false [] ls ws n
      ⟨List.nodup_nil, by simp⟩ hgo).2 rfl rfl
    obtain ⟨ws2, n2, h2⟩ := canon_rescan rel cf pf fn hcan 0
    rw [h2]
    exact ⟨ws2 ++ (if n2 > 1 then [.multiBatch fn] else []), rfl⟩

theorem C1_idempotent_witness :
    ∃ W2, sort_includes id (fun _ _ _ => .otherHeader) (fun _ => false) "f.cc"
        ["#include <a.h>", "#include <b.h>", ""]
      = .ok (["#include <a.h>", "#include <b.h>", ""], W2) :=
  C1_idempotent id (fun _ _ _ => .otherHeader) (fun _ => false) "f.cc"
    ["#include <b.h>", "#include <a.h>"]
    ["#include <a.h>", "#include <b.h>", ""] [] rfl

theorem C4_parse_error_witness :
    sort_includes id (fun _ _ _ => .otherHeader) (fun _ => false) "a.cc" ["#include <"]
      = .error (.parseFailure "#include <")
    ∧ stylify id (fun _ _ _ => .otherHeader) (fun _ => false) [("a.cc", ["#include <"])]
      = .error (.parseFailure "#include <") := by
  have := C4_parse_error id (fun _ _ _ => .otherHeader) (fun _ => false) "a.cc"
    "#include <" [] [] (by decide) (by decide)
  exact ⟨this.1, this.2.2.1⟩

/-! ### The spacing normalizer `correct_spacing` -/

theorem filter_expandTabs : ∀ l : List Char, (expandTabs l).filter nonWs = l.filter nonWs
  | [] => rfl
  | c :: l => by
    unfold expandTabs
    by_cases hc : c = '\t'
    · subst hc
      rw [if_pos rfl]
      rw [show (' ' :: ' ' :: expandTabs l).filter nonWs = (expandTabs l).filter nonWs from by
        simp [List.filter_cons, nonWs, pyWs]]
      rw [filter_expandTabs l]
      simp [List.filter_cons, nonWs, pyWs]
    · rw [if_neg hc, List.filter_cons, List.filter_cons, filter_expandTabs l]

theorem filter_dropWhileWs : ∀ l : List Char, (l.dropWhile pyWs).filter nonWs = l.filter nonWs
  | [] => rfl
  | c :: l => by
    by_cases hc : pyWs c
    · simp [List.dropWhile_cons, hc, List.filter_cons, nonWs, filter_dropWhileWs l]
    · simp [List.dropWhile_cons, hc]

theorem filter_reverse_chars (p : Char → Bool) :
    ∀ l : List Char, l.reverse.filter p = (l.filter p).reverse
  | [] => rfl
  | c :: l => by
    rw [List.reverse_cons, List.filter_append, filter_reverse_chars p l, List.filter_cons]
    by_cases hc : p c
    · rw [hc]
      simp [List.filter_cons, hc]
    · rw [show p c = false from by simpa using hc]
      simp [List.filter_cons, show p c = false from by simpa using hc]

theorem filter_dropTrailingWs (l : List Char) :
    (dropTrailingWs l).filter nonWs = l.filter nonWs := by
  unfold dropTrailingWs
  rw [filter_reverse_chars, filter_dropWhileWs, filter_reverse_chars, List.reverse_reverse]

theorem filter_insertGo (p : List Char → List Char → Bool) :
    ∀ (l rev : List Char), (insertGo p rev l).filter nonWs = l.filter nonWs
  | [], _ => rfl
  | c :: l, rev => by
    unfold insertGo
    by_cases hp : p rev (c :: l)
    · rw [if_pos hp]
      simp only [List.filter_cons, show nonWs ' ' = false from rfl, Bool.false_eq_true,
        if_false, filter_insertGo p l (c :: rev)]
    · rw [if_neg hp, List.filter_cons, List.filter_cons, filter_insertGo p l (c :: rev)]

theorem filter_semi1Go : ∀ l : List Char, ((semi1Go l).1).filter nonWs = l.filter nonWs
  | [] => rfl
  | c :: l => by
    have ih := filter_semi1Go l
    unfold semi1Go
    cases hres : semi1Go l with
    | mk t b =>
      rw [hres] at ih
      dsimp only
      by_cases hc : pyWs c
      · rw [if_pos hc]
        have hcf : nonWs c = false := by simp [nonWs, hc]
        cases b with
        | true => simp [List.filter_cons, hcf, ih]
        | false => simp [List.filter_cons, hcf, ih]
      · rw [if_neg hc]
        simp [List.filter_cons, ih]

theorem filter_semi1 (l : List Char) : (semi1 l).filter nonWs = l.filter nonWs :=
  filter_semi1Go l

theorem filter_comments1Go :
    ∀ (l rev : List Char), (comments1Go rev l).filter nonWs = l.filter nonWs
  | [], _ => rfl
  | c :: l, rev => by
    unfold comments1Go
    by_cases hb : notSpaceBehind rev = true
    · rw [if_pos hb]
      by_cases h1 : (c = ' ' && beginsWith ['/', '/'] l) = true
      · rw [if_pos h1]
        have hc : c = ' ' := by
          cases hcc : decide (c = ' ') with
          | true => exact of_decide_eq_true hcc
          | false => rw [show (c = ' ' : Bool) = decide (c = ' ') from rfl, hcc] at h1; simp at h1
        rw [List.filter_cons, List.filter_cons,
            show nonWs ' ' = false from rfl, List.filter_cons,
            show nonWs c = false from by rw [hc]; rfl,
            filter_comments1Go l (c :: rev)]
        simp
      · rw [if_neg h1]
        by_cases h2 : beginsWith ['/', '/'] (c :: l) = true
        · rw [if_pos h2, List.filter_cons, List.filter_cons,
              show nonWs ' ' = false from rfl, List.filter_cons, List.filter_cons,
              filter_comments1Go l (c :: rev)]
          simp
        · rw [if_neg h2, List.filter_cons, List.filter_cons, filter_comments1Go l (c :: rev)]
    · rw [if_neg hb, List.filter_cons, List.filter_cons, filter_comments1Go l (c :: rev)]

theorem filter_comments2Go :
    ∀ (l : List Char) (skip : Bool) (rev : List Char),
      (comments2Go skip rev l).filter nonWs = l.filter nonWs
  | [], skip, rev => by
    unfold comments2Go
    by_cases hb : (!skip && slashes2Behind rev) = true
    · rw [if_pos hb]; rfl
    · rw [if_neg hb]
  | c :: l, skip, rev => by
    unfold comments2Go
    cases skip with
    | true =>
      rw [if_pos rfl]
      by_cases hc : pyWs c
      · rw [if_pos hc, filter_comments2Go l true (c :: rev), List.filter_cons,
            show nonWs c = false from by simp [nonWs, hc]]
        simp
      · rw [if_neg hc, List.filter_cons, List.filter_cons, filter_comments2Go l false (c :: rev)]
    | false =>
      rw [if_neg (by simp)]
      by_cases hb : slashes2Behind rev = true
      · rw [if_pos hb]
        by_cases hc : pyWs c
        · rw [if_pos hc, List.filter_cons, show nonWs ' ' = false from rfl,
              filter_comments2Go l true (c :: rev), List.filter_cons,
              show nonWs c = false from by simp [nonWs, hc]]
          simp
        · rw [if_neg hc, List.filter_cons, show nonWs ' ' = false from rfl,
              List.filter_cons, List.filter_cons, filter_comments2Go l false (c :: rev)]
          simp
      · rw [if_neg hb, List.filter_cons, List.filter_cons, filter_comments2Go l false (c :: rev)]

/-- C7: `correct_spacing` changes only whitespace: the sequence of
non-whitespace characters of the output, in order, is identical to that
of the input (every rule only inserts or deletes whitespace). -/

theorem C7_nonws_preserved (s : String) :
    (correct_spacing s).data.filter nonWs = s.data.filter nonWs := by
  show (comments2Go false []
    (comments1Go []
      (insertGo comments0P []
        (insertGo loopsP []
          (insertGo operOutP []
            (insertGo operInP []
              (insertGo assignP []
                (insertGo curlyP []
                  (semi1
                    (insertGo semi0P []
                      (dropTrailingWs (expandTabs s.data)))))))))))).filter nonWs
    = s.data.filter nonWs
  rw [filter_comments2Go, filter_comments1Go, filter_insertGo, filter_insertGo,
      filter_insertGo, filter_insertGo, filter_insertGo, filter_insertGo, filter_semi1,
      filter_insertGo, filter_dropTrailingWs, filter_expandTabs]

theorem expandTabs_append :
    ∀ a b : List Char, expandTabs (a ++ b) = expandTabs a ++ expandTabs b
  | [], _ => rfl
  | c :: a, b => by
    simp only [List.cons_append, expandTabs]
    by_cases hc : c = '\t' <;> simp [hc, expandTabs_append a b]

theorem expandTabs_ne_nil (c : Char) (l : List Char) : expandTabs (c :: l) ≠ [] := by
  unfold expandTabs
  by_cases hc : c = '\t' <;> simp [hc]

theorem noSlashEnd_expandTabs : ∀ l : List Char, NoSlashEnd l → NoSlashEnd (expandTabs l)
  | [], h => h
  | [c], h => by
    intro d hd
    simp only [expandTabs] at hd
    by_cases hc : c = '\t'
    · rw [if_pos hc] at hd
      simp only [List.getLast?_cons_cons, List.getLast?_singleton, Option.some.injEq] at hd
      subst hd
      decide
    · rw [if_neg hc] at hd
      simp only [List.getLast?_singleton, Option.some.injEq] at hd
      subst hd
      exact h c rfl
  | c :: c2 :: l, h => by
    intro d hd
    rw [show expandTabs (c :: c2 :: l) = expandTabs [c] ++ expandTabs (c2 :: l) from
          expandTabs_append [c] (c2 :: l),
        List.getLast?_append_of_ne_nil _ (expandTabs_ne_nil c2 l)] at hd
    exact noSlashEnd_expandTabs (c2 :: l)
      (fun e he => h e (by rw [List.getLast?_cons_cons]; exact he)) d hd

theorem pyWs_expandTabs :
    ∀ l : List Char, (∀ c ∈ l, pyWs c = true) → ∀ c ∈ expandTabs l, pyWs c = true
  | [], _, c, hc => by simp [expandTabs] at hc
  | c0 :: l, h, c, hc => by
    unfold expandTabs at hc
    by_cases h0 : c0 = '\t'
    · rw [if_pos h0] at hc
      simp only [List.mem_cons] at hc
      rcases hc with rfl | rfl | hc
      · decide
      · decide
      · exact pyWs_expandTabs l (fun e he => h e (by simp [he])) c hc
    · rw [if_neg h0] at hc
      simp only [List.mem_cons] at hc
      rcases hc with rfl | hc
      · exact h c (by simp)
      · exact pyWs_expandTabs l (fun e he => h e (by simp [he])) c hc

/-- Tab expansion and trailing-whitespace stripping on a line whose
content ends with `//`. -/

theorem stageA (u w : List Char) (hw : ∀ c ∈ w, pyWs c = true) :
    dropTrailingWs (expandTabs (u ++ ['/', '/'] ++ w)) = expandTabs u ++ ['/', '/'] := by
  rw [expandTabs_append, expandTabs_append]
  unfold dropTrailingWs
  rw [List.reverse_append, List.reverse_append,
      show (expandTabs ['/', '/']).reverse ++ (expandTabs u).reverse
        = '/' :: '/' :: (expandTabs u).reverse from rfl,
      dropWhile_append_stop pyWs _
        (fun c hc => pyWs_expandTabs w hw c (List.mem_reverse.mp hc)) '/' (by decide) _]
  simp

theorem noSlashEnd_nil : NoSlashEnd [] := by
  intro c hc
  simp at hc

theorem noSlashEnd_append (a v : List Char) (hv : NoSlashEnd v)
    (ha : v = [] → NoSlashEnd a) : NoSlashEnd (a ++ v) := by
  intro c hc
  cases hvn : v with
  | nil =>
    subst hvn
    rw [List.append_nil] at hc
    exact ha rfl c hc
  | cons x xs =>
    subst hvn
    rw [List.getLast?_append_of_ne_nil a (by simp)] at hc
    exact hv c hc

theorem noSlashEnd_spaces1 : NoSlashEnd [' '] := by
  intro c hc
  simp only [List.getLast?_singleton, Option.some.injEq] at hc
  subst hc
  decide

theorem noSlashEnd_spaces2 : NoSlashEnd [' ', ' '] := by
  intro c hc
  simp only [List.getLast?_cons_cons, List.getLast?_singleton, Option.some.injEq] at hc
  subst hc
  decide

theorem noSlashEnd_revnil (l : List Char) (h : NoSlashEnd l) :
    ∀ c, (l.reverse ++ []).head? = some c → c ≠ '/' := by
  intro c hc
  rw [List.append_nil, List.head?_reverse] at hc
  exact h c hc

/-- The generic zero-width-insertion scanner keeps a final `//` intact
(no space is ever inserted between the two final slashes or at the end
of the line) provided the rule cannot fire between two slashes. -/

theorem insertGo_split (p : List Char → List Char → Bool)
    (hp : ∀ r : List Char, (∀ c, r.head? = some c → c ≠ '/') → p ('/' :: r) ['/'] = false) :
    ∀ (t rev0 : List Char), (∀ c, (t.reverse ++ rev0).head? = some c → c ≠ '/') →
      ∃ v, insertGo p rev0 (t ++ ['/', '/']) = v ++ ['/', '/']
        ∧ NoSlashEnd v ∧ (v = [] → t = [])
  | [], rev0, h => by
    have h0 : ∀ c, rev0.head? = some c → c ≠ '/' := by simpa using h
    have hfalse : p ('/' :: rev0) ['/'] = false := hp rev0 h0
    by_cases h1 : p rev0 ['/', '/'] = true
    · refine ⟨[' '], ?_, noSlashEnd_spaces1, by simp⟩
      show insertGo p rev0 ([] ++ ['/', '/']) = [' '] ++ ['/', '/']
      simp only [List.nil_append, insertGo, h1, hfalse, if_true, Bool.false_eq_true, if_false]
      rfl
    · refine ⟨[], ?_, noSlashEnd_nil, fun _ => rfl⟩
      show insertGo p rev0 ([] ++ ['/', '/']) = [] ++ ['/', '/']
      simp only [List.nil_append, insertGo, h1, hfalse, Bool.false_eq_true, if_false]
  | c :: t, rev0, h => by
    have h2 : ∀ c2, (t.reverse ++ (c :: rev0)).head? = some c2 → c2 ≠ '/' := by
      intro c2 hc2
      apply h c2
      rw [show (c :: t).reverse ++ rev0 = t.reverse ++ (c :: rev0) from by simp]
      exact hc2
    obtain ⟨v, hv, hns, hemp⟩ := insertGo_split p hp t (c :: rev0) h2
    have hcns : v = [] → NoSlashEnd [c] := by
      intro hveq
      have ht := hemp hveq
      subst ht
      have hc : c ≠ '/' := h c (by simp)
      intro d hd
      simp only [List.getLast?_singleton, Option.some.injEq] at hd
      subst hd
      exact hc
    by_cases h1 : p rev0 (c :: (t ++ ['/', '/'])) = true
    · refine ⟨' ' :: c :: v, ?_, ?_, by simp⟩
      · show insertGo p rev0 ((c :: t) ++ ['/', '/']) = (' ' :: c :: v) ++ ['/', '/']
        rw [List.cons_append]
        simp only [insertGo, h1, if_true, hv]
        simp
      · rw [show ' ' :: c :: v = [' ', c] ++ v from rfl]
        refine noSlashEnd_append _ v hns ?_
        intro hveq d hd
        simp only [List.getLast?_cons_cons] at hd
        exact hcns hveq d hd
    · refine ⟨c :: v, ?_, ?_, by simp⟩
      · show insertGo p rev0 ((c :: t) ++ ['/', '/']) = (c :: v) ++ ['/', '/']
        rw [List.cons_append]
        simp only [insertGo, h1, Bool.false_eq_true, if_false, hv]
        simp
      · rw [show c :: v = [c] ++ v from rfl]
        exact noSlashEnd_append _ v hns hcns

theorem semi0P_slash (r : List Char) (h : ∀ c, r.head? = some c → c ≠ '/') :
    semi0P ('/' :: r) ['/'] = false := rfl

theorem curlyP_slash (r : List Char) (h : ∀ c, r.head? = some c → c ≠ '/') :
    curlyP ('/' :: r) ['/'] = false := rfl

theorem assignP_slash (r : List Char) (h : ∀ c, r.head? = some c → c ≠ '/') :
    assignP ('/' :: r) ['/'] = false := rfl

theorem operInP_slash (r : List Char) (h : ∀ c, r.head? = some c → c ≠ '/') :
    operInP ('/' :: r) ['/'] = false := rfl

theorem operOutP_slash (r : List Char) (h : ∀ c, r.head? = some c → c ≠ '/') :
    operOutP ('/' :: r) ['/'] = false := by
  cases r with
  | nil => rfl
  | cons a r2 => simp [operOutP, twoCharOp, beginsWith]

theorem loopsP_slash (r : List Char) (h : ∀ c, r.head? = some c → c ≠ '/') :
    loopsP ('/' :: r) ['/'] = false := rfl

theorem comments0P_slash (r : List Char) (h : ∀ c, r.head? = some c → c ≠ '/') :
    comments0P ('/' :: r) ['/'] = false := by
  cases r with
  | nil => rfl
  | cons a r2 =>
    have ha : a ≠ '/' := h a rfl
    simp [comments0P, ha]

/-- Whitespace removal before `;`/`,` keeps a final `//` intact: the
whitespace directly before the slashes is followed by `/`, not by a
separator, so it survives. -/

theorem semi1_split : ∀ t : List Char, NoSlashEnd t →
    ∃ v b, semi1Go (t ++ ['/', '/']) = (v ++ ['/', '/'], b)
      ∧ NoSlashEnd v ∧ (v = [] → t = [] ∧ b = false)
  | [], _ => ⟨[], false, rfl, noSlashEnd_nil, fun _ => ⟨rfl, rfl⟩⟩
  | c :: t, h => by
    have ht : NoSlashEnd t := by
      intro e he
      cases t with
      | nil => simp at he
      | cons x xs => exact h e (by rw [List.getLast?_cons_cons]; exact he)
    obtain ⟨v, b, heq, hns, hemp⟩ := semi1_split t ht
    have hcns : v = [] → NoSlashEnd [c] := by
      intro hveq
      have ht2 := (hemp hveq).1
      subst ht2
      have hc : c ≠ '/' := h c rfl
      intro d hd
      simp only [List.getLast?_singleton, Option.some.injEq] at hd
      subst hd
      exact hc
    rw [List.cons_append]
    simp only [semi1Go, heq]
    by_cases hc : pyWs c
    · rw [if_pos hc]
      cases b with
      | true =>
        refine ⟨v, true, rfl, hns, ?_⟩
        intro hv
        exact absurd (hemp hv).2 (by simp)
      | false =>
        refine ⟨c :: v, false, by simp, ?_, by simp⟩
        rw [show c :: v = [c] ++ v from rfl]
        refine noSlashEnd_append _ v hns ?_
        intro _ d hd
        simp only [List.getLast?_singleton, Option.some.injEq] at hd
        subst hd
        intro he
        rw [he] at hc
        exact absurd hc (by decide)
    · rw [if_neg hc]
      refine ⟨c :: v, decide (c = ';') || decide (c = ','), by simp, ?_, by simp⟩
      rw [show c :: v = [c] ++ v from rfl]
      exact noSlashEnd_append _ v hns hcns

/-- The two-space comment rule keeps a final `//` intact (its lookahead
needs both slashes, so it never fires between them or at the end). -/

theorem comments1_split : ∀ (t rev0 : List Char),
    (∀ c, (t.reverse ++ rev0).head? = some c → c ≠ '/') →
    ∃ v, comments1Go rev0 (t ++ ['/', '/']) = v ++ ['/', '/']
      ∧ NoSlashEnd v ∧ (v = [] → t = [])
  | [], rev0, h => by
    by_cases hb : notSpaceBehind rev0 = true
    · refine ⟨[' ', ' '], ?_, noSlashEnd_spaces2, by simp⟩
      show comments1Go rev0 ([] ++ ['/', '/']) = [' ', ' '] ++ ['/', '/']
      simp only [List.nil_append]
      simp [comments1Go, hb, beginsWith]
    · refine ⟨[], ?_, noSlashEnd_nil, fun _ => rfl⟩
      show comments1Go rev0 ([] ++ ['/', '/']) = [] ++ ['/', '/']
      simp only [List.nil_append]
      simp [comments1Go, hb, beginsWith]
  | c :: t, rev0, h => by
    have h2 : ∀ c2, (t.reverse ++ (c :: rev0)).head? = some c2 → c2 ≠ '/' := by
      intro c2 hc2
      apply h c2
      rw [show (c :: t).reverse ++ rev0 = t.reverse ++ (c :: rev0) from by simp]
      exact hc2
    obtain ⟨v, hv, hns, hemp⟩ := comments1_split t (c :: rev0) h2
    have hcns : v = [] → NoSlashEnd [c] := by
      intro hveq
      have ht := hemp hveq
      subst ht
      have hc : c ≠ '/' := h c (by simp)
      intro d hd
      simp only [List.getLast?_singleton, Option.some.injEq] at hd
      subst hd
      exact hc
    rw [List.cons_append]
    simp only [comments1Go]
    by_cases hb : notSpaceBehind rev0 = true
    · rw [if_pos hb]
      by_cases h1 : (c = ' ' && beginsWith ['/', '/'] (t ++ ['/', '/'])) = true
      · rw [if_pos h1, hv]
        refine ⟨' ' :: ' ' :: v, by simp, ?_, by simp⟩
        rw [show ' ' :: ' ' :: v = [' ', ' '] ++ v from rfl]
        exact noSlashEnd_append _ v hns (fun _ => noSlashEnd_spaces2)
      · rw [if_neg h1]
        by_cases hbg : beginsWith ['/', '/'] (c :: (t ++ ['/', '/'])) = true
        · rw [if_pos hbg, hv]
          refine ⟨' ' :: ' ' :: c :: v, by simp, ?_, by simp⟩
          rw [show ' ' :: ' ' :: c :: v = [' ', ' ', c] ++ v from rfl]
          refine noSlashEnd_append _ v hns ?_
          intro hveq d hd
          simp only [List.getLast?_cons_cons] at hd
          exact hcns hveq d hd
        · rw [if_neg hbg, hv]
          refine ⟨c :: v, by simp, ?_, by simp⟩
          rw [show c :: v = [c] ++ v from rfl]
          exact noSlashEnd_append _ v hns hcns
    · rw [if_neg hb, hv]
      refine ⟨c :: v, by simp, ?_, by simp⟩
      rw [show c :: v = [c] ++ v from rfl]
      exact noSlashEnd_append _ v hns hcns

/-- The final comment rule turns the empty whitespace run after a
line-final `//` into exactly one space. -/

theorem comments2_final : ∀ (v rev0 : List Char) (skip : Bool),
    (∀ c, (v.reverse ++ rev0).head? = some c → c ≠ '/') →
    ∃ w, comments2Go skip rev0 (v ++ ['/', '/']) = w ++ ['/', '/', ' ']
  | [], rev0, skip, h => by
    have h0 : ∀ c, rev0.head? = some c → c ≠ '/' := by simpa using h
    have hsl : slashes2Behind ('/' :: rev0) = false := by
      cases rev0 with
      | nil => rfl
      | cons d r0 =>
        have hd : d ≠ '/' := h0 d rfl
        simp [slashes2Behind, hd]
    have hsl0 : slashes2Behind rev0 = false := by
      cases rev0 with
      | nil => rfl
      | cons d r0 =>
        have hd : d ≠ '/' := h0 d rfl
        cases r0 <;> simp [slashes2Behind, hd]
    have hsl2 : slashes2Behind ('/' :: '/' :: rev0) = true := rfl
    have hpw : pyWs '/' = false := rfl
    refine ⟨[], ?_⟩
    simp only [List.nil_append]
    cases skip with
    | true => simp [comments2Go, hsl, hsl2, hpw]
    | false => simp [comments2Go, hsl, hsl0, hsl2, hpw]
  | c :: v, rev0, skip, h => by
    have h2 : ∀ c2, (v.reverse ++ (c :: rev0)).head? = some c2 → c2 ≠ '/' := by
      intro c2 hc2
      apply h c2
      rw [show (c :: v).reverse ++ rev0 = v.reverse ++ (c :: rev0) from by simp]
      exact hc2
    rw [List.cons_append]
    simp only [comments2Go]
    cases skip with
    | true =>
      rw [if_pos rfl]
      by_cases hc : pyWs c
      · rw [if_pos hc]
        obtain ⟨w, hw⟩ := comments2_final v (c :: rev0) true h2
        exact ⟨w, hw⟩
      · rw [if_neg hc]
        obtain ⟨w, hw⟩ := comments2_final v (c :: rev0) false h2
        exact ⟨c :: w, by rw [hw]; simp⟩
    | false =>
      rw [if_neg (by simp)]
      by_cases hb : slashes2Behind rev0 = true
      · rw [if_pos hb]
        by_cases hc : pyWs c
        · rw [if_pos hc]
          obtain ⟨w, hw⟩ := comments2_final v (c :: rev0) true h2
          exact ⟨' ' :: w, by rw [hw]; simp⟩
        · rw [if_neg hc]
          obtain ⟨w, hw⟩ := comments2_final v (c :: rev0) false h2
          exact ⟨' ' :: c :: w, by rw [hw]; simp⟩
      · rw [if_neg hb]
        obtain ⟨w, hw⟩ := comments2_final v (c :: rev0) false h2
        exact ⟨c :: w, by rw [hw]; simp⟩

/-- C8: the sample line of the spec: every two-character operator
receives one space on each side, and the single-character rule does not
split them. -/

theorem C8_two_char_ops : correct_spacing "a==b||c>=d" = "a == b || c >= d" := by
  decide

/-- C9 counterexample: the line `x///` ends with the two-character
marker `//`, yet its correction `x  // /` does not end with a space at
all: the first comment rule inserts a space between the last two
slashes, so the trailing-space conclusion fails for lines whose final
`//` is preceded by another slash. -/

theorem C9_counterexample :
    (['/', '/'].isSuffixOf "x///".data
      ∧ correct_spacing "x///" = "x  // /"
      ∧ ¬ ['/', '/', ' '].isSuffixOf (correct_spacing "x///").data
      ∧ ¬ [' '].isSuffixOf (correct_spacing "x///").data) := by
  decide

/-- C9 (amended): for every line of the form `u ++ "//" ++ w` with `w`
only whitespace and `u` empty or not ending in a slash, the corrected
line ends with `//` followed by exactly one space: the last comment
rule replaces the empty whitespace run after the final `//` with a
single space, so the output carries trailing whitespace despite the
trailing-whitespace-stripping step. -/

theorem C9_trailing_comment (s : String) (u w : List Char)
    (hs : s.data = u ++ ['/', '/'] ++ w)
    (hw : ∀ c ∈ w, pyWs c = true)
    (hu : NoSlashEnd u) :
    ∃ v, (correct_spacing s).data = v ++ ['/', '/', ' '] := by
  show ∃ v, comments2Go false []
    (comments1Go []
      (insertGo comments0P []
        (insertGo loopsP []
          (insertGo operOutP []
            (insertGo operInP []
              (insertGo assignP []
                (insertGo curlyP []
                  (semi1
                    (insertGo semi0P []
                      (dropTrailingWs (expandTabs s.data)))))))))))
    = v ++ ['/', '/', ' ']
  rw [hs, stageA u w hw]
  have h0 : NoSlashEnd (expandTabs u) := noSlashEnd_expandTabs u hu
  obtain ⟨v1, hv1, hns1, -⟩ :=
    insertGo_split semi0P semi0P_slash (expandTabs u) [] (noSlashEnd_revnil _ h0)
  rw [hv1]
  obtain ⟨v2, b2, hv2, hns2, -⟩ := semi1_split v1 hns1
  rw [show semi1 (v1 ++ ['/', '/']) = v2 ++ ['/', '/'] from by unfold semi1; rw [hv2]]
  obtain ⟨v3, hv3, hns3, -⟩ :=
    insertGo_split curlyP curlyP_slash v2 [] (noSlashEnd_revnil _ hns2)
  rw [hv3]
  obtain ⟨v4, hv4, hns4, -⟩ :=
    insertGo_split assignP assignP_slash v3 [] (noSlashEnd_revnil _ hns3)
  rw [hv4]
  obtain ⟨v5, hv5, hns5, -⟩ :=
    insertGo_split operInP operInP_slash v4 [] (noSlashEnd_revnil _ hns4)
  rw [hv5]
  obtain ⟨v6, hv6, hns6, -⟩ :=
    insertGo_split operOutP operOutP_slash v5 [] (noSlashEnd_revnil _ hns5)
  rw [hv6]
  obtain ⟨v7, hv7, hns7, -⟩ :=
    insertGo_split loopsP loopsP_slash v6 [] (noSlashEnd_revnil _ hns6)
  rw [hv7]
  obtain ⟨v8, hv8, hns8, -⟩ :=
    insertGo_split comments0P comments0P_slash v7 [] (noSlashEnd_revnil _ hns7)
  rw [hv8]
  obtain ⟨v9, hv9, hns9, -⟩ := comments1_split v8 [] (noSlashEnd_revnil _ hns8)
  rw [hv9]
  exact comments2_final v9 [] false (noSlashEnd_revnil _ hns9)

theorem C9_trailing_comment_witness :
    ∃ v, (correct_spacing "abc//").data = v ++ ['/', '/', ' '] :=
  C9_trailing_comment "abc//" ['a', 'b', 'c'] [] (by decide)
    (fun c hc => by simp at hc)
    (by
      intro c hc
      simp only [List.getLast?_cons_cons, List.getLast?_singleton, Option.some.injEq] at hc
      subst hc
      decide)

end Nitpick
